import Mathlib

/-!
# Verification of `kmeaningful/fit_assign.py`

A shallow embedding of the K-means implementation in
`src/kmeaningful/fit_assign.py` (functions `init_centers`, `assign`,
`measure_dist`, `calc_centers`, `fit`, `fit_assign`), together with theorems
settling the frozen claims about that code.

Modelling conventions:
* Numeric data is embedded as exact rationals (`ℚ`); a point matrix is a
  `List (List ℚ)` of rows.  Square roots land in `ℝ` (`Real.sqrt`), exactly
  as `np.sqrt` produces a real value; all comparisons the code performs on
  those values (argmin / argmax) are order-theoretic and are transported to
  the rational squares through the strict monotonicity of `Real.sqrt`.
* Exceptions (`raise Exception(msg)`) are embedded as `Except String`,
  carrying the message of the corresponding `raise` statement.
* The ambient randomness (`random.randint`, `np.random.choice`) is embedded
  as an explicit oracle `RNG` supplying the drawn values; the Python
  functions take no seed or generator parameter, so the oracle stands for
  the global interpreter-wide random state.
* Missing values (NaN) cannot exist in `ℚ`; the NaN-guard behaviour of the
  entry points is embedded separately over `Option ℚ` (`none` = NaN), with
  NaN-propagating arithmetic, in the `F`-suffixed definitions below.
-/

/- The Batteries `Rat` arithmetic operations are `@[irreducible]` by
default, which blocks `decide` on concrete rational computations; they are
perfectly sound to unfold. -/
set_option allowUnsafeReducibility true
attribute [semireducible] Rat.inv Rat.mul Rat.add Rat.sub

namespace KMeansFit

instance {ε α : Type} [DecidableEq ε] [DecidableEq α] : DecidableEq (Except ε α) := fun a b =>
  match a, b with
  | .error e, .error f =>
    if h : e = f then .isTrue (h ▸ rfl) else .isFalse (fun hc => h (Except.error.inj hc))
  | .error _, .ok _ => .isFalse (fun hc => Except.noConfusion hc)
  | .ok _, .error _ => .isFalse (fun hc => Except.noConfusion hc)
  | .ok x, .ok y =>
    if h : x = y then .isTrue (h ▸ rfl) else .isFalse (fun hc => h (Except.ok.inj hc))

/-- A numeric matrix: list of rows, each row a list of rationals. -/
abbrev Mat := List (List ℚ)

/-- `X.shape[1]` of a (rectangular) matrix: the length of its first row. -/
def width (X : Mat) : ℕ := (X.headD []).length

/-- `X` is rectangular with row width `d`: every row has length `d`. -/
def Rect (X : Mat) (d : ℕ) : Prop := ∀ r ∈ X, r.length = d

instance (X : Mat) (d : ℕ) : Decidable (Rect X d) := by
  unfold Rect; infer_instance

/-- `np.sum((pt - cent)**2)` for two rows of equal width: the squared
Euclidean distance. -/
def sqDist (p c : List ℚ) : ℚ := ((p.zip c).map (fun t => (t.1 - t.2) ^ 2)).sum

/-- The Euclidean distance `np.sqrt(np.sum((pt - cent)**2))` between two
rows (the entry computed by `measure_dist`, line 151 of the source). -/
noncomputable def eucDist (p c : List ℚ) : ℝ := Real.sqrt ((sqDist p c : ℚ) : ℝ)

/-- `np.argmin` helper: scan the remaining list, keeping the index of the
first strictly smallest element seen so far. -/
def argminAux [LinearOrder α] : List α → α → ℕ → ℕ → ℕ
  | [], _, bi, _ => bi
  | x :: xs, best, bi, i =>
    if x < best then argminAux xs x i (i + 1) else argminAux xs best bi (i + 1)

/-- `np.argmin` over a list: index of the first occurrence of the minimum
(`0` on the empty list, which numpy instead rejects; the embedding of
`assign` raises that case explicitly before calling `argminIdx`). -/
def argminIdx [LinearOrder α] : List α → ℕ
  | [] => 0
  | x :: xs => argminAux xs x 0 1

/-- `np.argmax` helper: keep the index of the first strictly largest
element seen so far. -/
def argmaxAux [LinearOrder α] : List α → α → ℕ → ℕ → ℕ
  | [], _, bi, _ => bi
  | x :: xs, best, bi, i =>
    if best < x then argmaxAux xs x i (i + 1) else argmaxAux xs best bi (i + 1)

/-- `np.argmax` over a list: index of the first occurrence of the maximum. -/
def argmaxIdx [LinearOrder α] : List α → ℕ
  | [] => 0
  | x :: xs => argmaxAux xs x 0 1

/-- `measure_dist(X, centers)` (source lines 114-152): guard
`X.shape[0] < centers.shape[0]`, then the `(n, k)` matrix of Euclidean
distances `np.sqrt(np.sum((pt - cent)**2))`. -/
noncomputable def measure_dist (X C : Mat) : Except String (List (List ℝ)) :=
  if X.length < C.length then .error "There are more centers than data points"
  else .ok (X.map (fun p => C.map (fun c => Real.sqrt ((sqDist p c : ℚ) : ℝ))))

/-- Computation twin of `measure_dist` carrying the squared distances
(rational, hence decidable); `measure_dist` is recovered entrywise by
`Real.sqrt`, and all order comparisons agree by monotonicity of `sqrt`. -/
def measure_distQ (X C : Mat) : Except String Mat :=
  if X.length < C.length then .error "There are more centers than data points"
  else .ok (X.map (fun p => C.map (fun c => sqDist p c)))

/-- `assign(X, centers)` (source lines 73-111): width guard, count guard,
then per-point `np.argmin` over the row of distances from `measure_dist`.
`np.argmin` on an empty row (no centers but at least one point) raises in
numpy; that case is made an explicit error here. -/
noncomputable def assign (X C : Mat) : Except String (List ℤ) :=
  if width X ≠ width C then .error "`X` and `centers` must have the same width"
  else if X.length < C.length then .error "There are more centers than data points"
  else if C.isEmpty ∧ ¬X.isEmpty then .error "attempt to get argmin of an empty sequence"
  else (measure_dist X C).map (fun D => D.map (fun row => (argminIdx row : ℤ)))

/-- Computation twin of `assign` taking argmins over the squared distances. -/
def assignQ (X C : Mat) : Except String (List ℤ) :=
  if width X ≠ width C then .error "`X` and `centers` must have the same width"
  else if X.length < C.length then .error "There are more centers than data points"
  else if C.isEmpty ∧ ¬X.isEmpty then .error "attempt to get argmin of an empty sequence"
  else (measure_distQ X C).map (fun D => D.map (fun row => (argminIdx row : ℤ)))

/-- `measure_dist(X, centers[kk])` as called on a 1-D row inside
`calc_centers` (source line 198): numpy sees a shape-`(d,)` array, so
`centers.shape[0]` is `d`, each "center" is the scalar `c[j]`, and the
broadcast `pt - cent` subtracts that scalar from every coordinate of the
point.  Entry `(i, j)` is `sqrt(Σ_dd (X[i][dd] - c[j])²)`. -/
noncomputable def measure_dist1 (X : Mat) (c : List ℚ) : Except String (List (List ℝ)) :=
  if X.length < c.length then .error "There are more centers than data points"
  else .ok (X.map (fun p => c.map (fun cj =>
    Real.sqrt (((p.map (fun x => (x - cj) ^ 2)).sum : ℚ) : ℝ))))

/-- Computation twin of `measure_dist1` carrying the squared values. -/
def measure_dist1Q (X : Mat) (c : List ℚ) : Except String Mat :=
  if X.length < c.length then .error "There are more centers than data points"
  else .ok (X.map (fun p => c.map (fun cj => (p.map (fun x => (x - cj) ^ 2)).sum)))

/-- `X[labels == kk]`: the points of `X` whose label equals `j`. -/
def clusterPts (X : Mat) (L : List ℤ) (j : ℤ) : Mat :=
  ((X.zip L).filter (fun t => t.2 = j)).map (fun t => t.1)

/-- `[np.mean(X[labels == kk][:, dd]) for dd in range(d)]`: the
per-dimension arithmetic mean of a cluster's points. -/
def meanRow (pts : Mat) (d : ℕ) : List ℚ :=
  (List.range d).map (fun dd => (pts.map (fun p => p.getD dd 0)).sum / (pts.length : ℚ))

/-- `calc_centers(X, centers, labels)` (source lines 155-202): length and
width guards, then for each cluster index `kk` the per-dimension mean of
its points; the `np.isnan(np.sum(current_center))` test is true exactly
when `d > 0` and the cluster is empty (mean of an empty slice is NaN), in
which case the fallback row `X[np.argmax(dists) // d]` is taken, with
`dists = measure_dist(X, centers[kk])` computed on the 1-D old center row. -/
noncomputable def calc_centers (X C : Mat) (L : List ℤ) : Except String Mat :=
  if X.length ≠ L.length then .error "The number of labels is different from the number of points"
  else if width X ≠ width C then .error "`X` and `centers` must have the same width"
  else
    (List.range C.length).mapM (fun kk =>
      if 0 < width X ∧ clusterPts X L (Int.ofNat kk) = [] then
        (measure_dist1 X (C.getD kk [])).map
          (fun D => X.getD (argmaxIdx D.flatten / width X) [])
      else .ok (meanRow (clusterPts X L (Int.ofNat kk)) (width X)))

/-- Computation twin of `calc_centers`, with the fallback argmax taken over
the squared values. -/
def calc_centersQ (X C : Mat) (L : List ℤ) : Except String Mat :=
  if X.length ≠ L.length then .error "The number of labels is different from the number of points"
  else if width X ≠ width C then .error "`X` and `centers` must have the same width"
  else
    (List.range C.length).mapM (fun kk =>
      if 0 < width X ∧ clusterPts X L (Int.ofNat kk) = [] then
        (measure_dist1Q X (C.getD kk [])).map
          (fun D => X.getD (argmaxIdx D.flatten / width X) [])
      else .ok (meanRow (clusterPts X L (Int.ofNat kk)) (width X)))

/-- The drawn values of the ambient random state: `first` models the
`random.randint(0, n - 1)` draw for the first center, and `choice step ps`
models the index returned by `np.random.choice(range(n), p=ps)` at the
given step.  The Python functions expose no seed or generator parameter;
this oracle stands for the global random state they consume. -/
structure RNG where
  first : ℕ
  choice : ℕ → List ℚ → ℕ

/-- The rows `X[i]` for the already-selected indices `ind` — the filled
prefix `centers[0:kk]` of the centers array inside `init_centers`. -/
def chosenCenters (X : Mat) (ind : List ℕ) : Mat := ind.map (fun i => X.getD i [])

/-- `min` where `none` plays `np.inf`: the identity element, dominated by
every finite value. -/
def minInf : Option ℚ → Option ℚ → Option ℚ
  | none, b => b
  | some a, none => some a
  | some a, some b => some (min a b)

/-- `dists_sq[dists_sq == 0] = np.inf` on one entry. -/
def zeroToInf (x : ℚ) : Option ℚ := if x = 0 then none else some x

/-- Source lines 50-60 of `init_centers`, producing the per-point weights:
`dists_sq = measure_dist(X, centers[0:kk])**2` (entrywise `sqrt(s)² = s`,
so the entries are the squared distances `sqDist`), then the rows of
already-selected indices are zeroed, every `0` entry becomes `np.inf`, the
row minimum is taken, and `np.inf` minima become `0` again. -/
def initWeights (X : Mat) (centers : Mat) (ind : List ℕ) : List ℚ :=
  (List.range X.length).map (fun i =>
    let row := if i ∈ ind then centers.map (fun _ => (0 : ℚ))
               else centers.map (fun c => sqDist (X.getD i []) c)
    ((row.map zeroToInf).foldr minInf none).getD 0)

/-- Source line 62: `probs = dists_sq / np.sum(dists_sq)` (in `ℚ` a zero
total makes every quotient `0`; in floating point it makes them NaN, which
`np.random.choice` then rejects — see `init_step`). -/
def initProbs (X : Mat) (centers : Mat) (ind : List ℕ) : List ℚ :=
  let w := initWeights X centers ind
  w.map (fun x => x / w.sum)

/-- One pass of the `for kk in range(1, k)` loop of `init_centers`:
compute the probabilities and draw the next index with
`np.random.choice(range(n), size=1, p=probs)`.  `np.random.choice` raises
when the probability vector does not sum to 1 (in particular when the
weights summed to 0 and the quotients degenerated). -/
def init_step (X : Mat) (rng : RNG) (ind : List ℕ) : Except String (List ℕ) :=
  let probs := initProbs X (chosenCenters X ind) ind
  if probs.sum ≠ 1 then .error "probabilities do not sum to 1"
  else .ok (ind ++ [rng.choice ind.length probs])

/-- The remaining iterations of the selection loop of `init_centers`. -/
def init_aux (X : Mat) (rng : RNG) : ℕ → List ℕ → Except String (List ℕ)
  | 0, ind => .ok ind
  | m + 1, ind => init_step X rng ind >>= init_aux X rng m

/-- `init_centers(X, k)` (source lines 6-70): the `k > n` and `k <= 0`
guards, the uniform first pick (`random.randint(0, n-1)`, modelled as
`rng.first % n`, the draw being supported on `[0, n)`), then `k - 1`
weighted draws, returning the selected rows of `X`. -/
def init_centers (X : Mat) (k : ℤ) (rng : RNG) : Except String Mat :=
  if k > (X.length : ℤ) then
    .error "Number of clusters must be less than number of data points"
  else if k ≤ 0 then .error "Number of clusters must be a positive integer"
  else
    (init_aux X rng (k.toNat - 1) [rng.first % X.length]).map (chosenCenters X)

/-- `np.sum(new_centers - centers)`: the signed sum of all coordinate
differences between two equally-shaped matrices. -/
def sumDiff (A B : Mat) : ℚ :=
  ((A.zip B).map (fun rr => ((rr.1.zip rr.2).map (fun s => s.1 - s.2)).sum)).sum

/-- The `while` loop of `fit` (source lines 254-261), with the loop
counter `i` and both live matrices carried explicitly.  The condition is
`np.sum(new_centers - centers) ≠ 0 and i < 20`; the body reassigns from
the new centers and recomputes.  (The `labels`/`new_labels` variables of
the source are dead inside the loop state — `labels` is never read after
being overwritten — so they are not carried.)  The result keeps the final
`(centers, new_centers, i)` triple so the stopping condition can be
stated; `fit` projects out `new_centers`, the value the source returns. -/
noncomputable def fitLoopGo (X : Mat) : ℕ → Mat → Mat → ℕ → Except String (Mat × Mat × ℕ)
  | 0, centers, newCenters, i => .ok (centers, newCenters, i)
  | fuel + 1, centers, newCenters, i =>
    if sumDiff newCenters centers ≠ 0 ∧ i < 20 then
      match assign X newCenters with
      | .error e => .error e
      | .ok nl =>
        match calc_centers X newCenters nl with
        | .error e => .error e
        | .ok nc => fitLoopGo X fuel newCenters nc (i + 1)
    else .ok (centers, newCenters, i)

/-- The loop entered with counter `i` has at most `20 - i` passes left, so
the fuel value `20 - i` never runs out before the guard `i < 20` goes
false: `fitLoop` is exactly the `while` loop.  (When the fuel hits `0` the
counter is `20` and the guard is false anyway, so the two exits agree.) -/
noncomputable def fitLoop (X : Mat) (centers newCenters : Mat) (i : ℕ) :
    Except String (Mat × Mat × ℕ) :=
  fitLoopGo X (20 - i) centers newCenters i

/-- Computation twin of `fitLoopGo` over the rational twins. -/
def fitLoopQGo (X : Mat) : ℕ → Mat → Mat → ℕ → Except String (Mat × Mat × ℕ)
  | 0, centers, newCenters, i => .ok (centers, newCenters, i)
  | fuel + 1, centers, newCenters, i =>
    if sumDiff newCenters centers ≠ 0 ∧ i < 20 then
      match assignQ X newCenters with
      | .error e => .error e
      | .ok nl =>
        match calc_centersQ X newCenters nl with
        | .error e => .error e
        | .ok nc => fitLoopQGo X fuel newCenters nc (i + 1)
    else .ok (centers, newCenters, i)

/-- Computation twin of `fitLoop`. -/
def fitLoopQ (X : Mat) (centers newCenters : Mat) (i : ℕ) :
    Except String (Mat × Mat × ℕ) :=
  fitLoopQGo X (20 - i) centers newCenters i

/-- `fit(X, k)` (source lines 205-263) after its input guards, keeping the
ghost `(centers, new_centers, i)` triple of the loop.  The NaN guard
(`np.isnan(np.sum(X))`) is modelled in the `Option`-valued layer (`fitF`):
exact rational inputs carry no NaN.  The `pd.DataFrame(X)` convertibility
guard is satisfied by every value of type `Mat`, and `isinstance(k, int)`
by the type `ℤ` of `k`.  The source computes `new_labels = assign(X,
centers)` once more before the loop (line 249, against the old centers);
that value equals `labels` and is dead, but the call is kept because its
failure would propagate. -/
noncomputable def fitAux (X : Mat) (k : ℤ) (rng : RNG) :
    Except String (Mat × Mat × ℕ) :=
  match init_centers X k rng with
  | .error e => .error e
  | .ok centers =>
    match assign X centers with
    | .error e => .error e
    | .ok labels =>
      match calc_centers X centers labels with
      | .error e => .error e
      | .ok newCenters =>
        match assign X centers with
        | .error e => .error e
        | .ok _newLabels => fitLoop X centers newCenters 1

/-- Computation twin of `fitAux`. -/
def fitAuxQ (X : Mat) (k : ℤ) (rng : RNG) : Except String (Mat × Mat × ℕ) :=
  match init_centers X k rng with
  | .error e => .error e
  | .ok centers =>
    match assignQ X centers with
    | .error e => .error e
    | .ok labels =>
      match calc_centersQ X centers labels with
      | .error e => .error e
      | .ok newCenters =>
        match assignQ X centers with
        | .error e => .error e
        | .ok _newLabels => fitLoopQ X centers newCenters 1

/-- `fit(X, k)`: the centers the source returns (`new_centers`). -/
noncomputable def fit (X : Mat) (k : ℤ) (rng : RNG) : Except String Mat :=
  (fitAux X k rng).map (fun t => t.2.1)

/-- Computation twin of `fit`. -/
def fitQ (X : Mat) (k : ℤ) (rng : RNG) : Except String Mat :=
  (fitAuxQ X k rng).map (fun t => t.2.1)

/-- `fit_assign(X, k)` (source lines 266-307): `fit`, then one more
`assign` on the returned centers. -/
noncomputable def fit_assign (X : Mat) (k : ℤ) (rng : RNG) :
    Except String (Mat × List ℤ) :=
  match fit X k rng with
  | .error e => .error e
  | .ok c =>
    match assign X c with
    | .error e => .error e
    | .ok l => .ok (c, l)

/-- The global centroid: the per-dimension mean of all points of `X`. -/
def centroidRow (X : Mat) : List ℚ := meanRow X (width X)

/-! ## Specification of `argminIdx` / `argmaxIdx` (first occurrence of the
extremum, as `np.argmin` / `np.argmax` return it) -/

theorem argminAux_spec [LinearOrder α] (e : α) (xs : List α) :
    ∀ (best : α) (bi i : ℕ),
      (argminAux xs best bi i = bi ∧ ∀ j < xs.length, best ≤ xs.getD j e) ∨
      (∃ j < xs.length, argminAux xs best bi i = i + j ∧ xs.getD j e < best ∧
        (∀ m < xs.length, xs.getD j e ≤ xs.getD m e) ∧
        (∀ m < j, xs.getD j e < xs.getD m e)) := by
  induction xs with
  | nil => intro best bi i; left; exact ⟨rfl, by simp⟩
  | cons y ys ih =>
    intro best bi i
    rw [argminAux]
    by_cases hy : y < best
    · rw [if_pos hy]
      rcases ih y i (i + 1) with ⟨h1, h2⟩ | ⟨j, hj, h1, h2, h3, h4⟩
      · right
        refine ⟨0, by simp, by rw [h1, Nat.add_zero], by simpa using hy, ?_, by omega⟩
        intro m hm
        match m with
        | 0 => simp
        | Nat.succ m => simpa using h2 m (by simpa using hm)
      · right
        refine ⟨j + 1, by simpa using hj, by rw [h1]; omega, by simpa using h2.trans hy,
          ?_, ?_⟩
        · intro m hm
          match m with
          | 0 => simpa using h2.le
          | Nat.succ m => simpa using h3 m (by simpa using hm)
        · intro m hm
          match m with
          | 0 => simpa using h2
          | Nat.succ m => simpa using h4 m (by omega)
    · rw [if_neg hy]
      rcases ih best bi (i + 1) with ⟨h1, h2⟩ | ⟨j, hj, h1, h2, h3, h4⟩
      · left
        refine ⟨h1, ?_⟩
        intro m hm
        match m with
        | 0 => simpa using not_lt.mp hy
        | Nat.succ m => simpa using h2 m (by simpa using hm)
      · right
        refine ⟨j + 1, by simpa using hj, by rw [h1]; omega, by simpa using h2, ?_, ?_⟩
        · intro m hm
          match m with
          | 0 => simpa using (h2.trans_le (not_lt.mp hy)).le
          | Nat.succ m => simpa using h3 m (by simpa using hm)
        · intro m hm
          match m with
          | 0 => simpa using h2.trans_le (not_lt.mp hy)
          | Nat.succ m => simpa using h4 m (by omega)

theorem argminIdx_spec [LinearOrder α] (e : α) (l : List α) (hl : l ≠ []) :
    argminIdx l < l.length ∧
    (∀ m < l.length, l.getD (argminIdx l) e ≤ l.getD m e) ∧
    (∀ m < argminIdx l, l.getD (argminIdx l) e < l.getD m e) := by
  match l with
  | [] => exact absurd rfl hl
  | x :: xs =>
    rw [argminIdx]
    rcases argminAux_spec e xs x 0 1 with ⟨h1, h2⟩ | ⟨j, hj, h1, h2, h3, h4⟩
    · rw [h1]
      refine ⟨by simp, ?_, by omega⟩
      intro m hm
      match m with
      | 0 => simp
      | Nat.succ m => simpa using h2 m (by simpa using hm)
    · rw [h1]
      have h1j : 1 + j = j + 1 := by omega
      rw [h1j]
      refine ⟨by simpa using hj, ?_, ?_⟩
      · intro m hm
        match m with
        | 0 => simpa using h2.le
        | Nat.succ m => simpa using h3 m (by simpa using hm)
      · intro m hm
        match m with
        | 0 => simpa using h2
        | Nat.succ m => simpa using h4 m (by omega)

theorem argminIdx_lt_length [LinearOrder α] (l : List α) (hl : l ≠ []) :
    argminIdx l < l.length := by
  match l with
  | [] => exact absurd rfl hl
  | x :: xs => exact (argminIdx_spec x (x :: xs) (by simp)).1

theorem argminIdx_eq_of_unique [LinearOrder α] (e : α) (l : List α) (j0 : ℕ)
    (hj0 : j0 < l.length) (h : ∀ m < l.length, m ≠ j0 → l.getD j0 e < l.getD m e) :
    argminIdx l = j0 := by
  have hl : l ≠ [] := by intro hnil; rw [hnil] at hj0; simp at hj0
  obtain ⟨hlt, hle, _⟩ := argminIdx_spec e l hl
  by_contra hne
  exact absurd (hle j0 hj0) (not_le.mpr (h (argminIdx l) hlt hne))

theorem argmaxAux_spec [LinearOrder α] (e : α) (xs : List α) :
    ∀ (best : α) (bi i : ℕ),
      (argmaxAux xs best bi i = bi ∧ ∀ j < xs.length, xs.getD j e ≤ best) ∨
      (∃ j < xs.length, argmaxAux xs best bi i = i + j ∧ best < xs.getD j e ∧
        (∀ m < xs.length, xs.getD m e ≤ xs.getD j e) ∧
        (∀ m < j, xs.getD m e < xs.getD j e)) := by
  induction xs with
  | nil => intro best bi i; left; exact ⟨rfl, by simp⟩
  | cons y ys ih =>
    intro best bi i
    rw [argmaxAux]
    by_cases hy : best < y
    · rw [if_pos hy]
      rcases ih y i (i + 1) with ⟨h1, h2⟩ | ⟨j, hj, h1, h2, h3, h4⟩
      · right
        refine ⟨0, by simp, by rw [h1, Nat.add_zero], by simpa using hy, ?_, by omega⟩
        intro m hm
        match m with
        | 0 => simp
        | Nat.succ m => simpa using h2 m (by simpa using hm)
      · right
        refine ⟨j + 1, by simpa using hj, by rw [h1]; omega, by simpa using hy.trans h2,
          ?_, ?_⟩
        · intro m hm
          match m with
          | 0 => simpa using h2.le
          | Nat.succ m => simpa using h3 m (by simpa using hm)
        · intro m hm
          match m with
          | 0 => simpa using h2
          | Nat.succ m => simpa using h4 m (by omega)
    · rw [if_neg hy]
      rcases ih best bi (i + 1) with ⟨h1, h2⟩ | ⟨j, hj, h1, h2, h3, h4⟩
      · left
        refine ⟨h1, ?_⟩
        intro m hm
        match m with
        | 0 => simpa using not_lt.mp hy
        | Nat.succ m => simpa using h2 m (by simpa using hm)
      · right
        refine ⟨j + 1, by simpa using hj, by rw [h1]; omega, by simpa using h2, ?_, ?_⟩
        · intro m hm
          match m with
          | 0 => simpa using ((not_lt.mp hy).trans h2.le)
          | Nat.succ m => simpa using h3 m (by simpa using hm)
        · intro m hm
          match m with
          | 0 => simpa using (not_lt.mp hy).trans_lt h2
          | Nat.succ m => simpa using h4 m (by omega)

theorem argmaxIdx_spec [LinearOrder α] (e : α) (l : List α) (hl : l ≠ []) :
    argmaxIdx l < l.length ∧
    (∀ m < l.length, l.getD m e ≤ l.getD (argmaxIdx l) e) ∧
    (∀ m < argmaxIdx l, l.getD m e < l.getD (argmaxIdx l) e) := by
  match l with
  | [] => exact absurd rfl hl
  | x :: xs =>
    rw [argmaxIdx]
    rcases argmaxAux_spec e xs x 0 1 with ⟨h1, h2⟩ | ⟨j, hj, h1, h2, h3, h4⟩
    · rw [h1]
      refine ⟨by simp, ?_, by omega⟩
      intro m hm
      match m with
      | 0 => simp
      | Nat.succ m => simpa using h2 m (by simpa using hm)
    · rw [h1]
      have h1j : 1 + j = j + 1 := by omega
      rw [h1j]
      refine ⟨by simpa using hj, ?_, ?_⟩
      · intro m hm
        match m with
        | 0 => simpa using h2.le
        | Nat.succ m => simpa using h3 m (by simpa using hm)
      · intro m hm
        match m with
        | 0 => simpa using h2
        | Nat.succ m => simpa using h4 m (by omega)

/-! ## Transport of argmin/argmax along an order-reflecting map
(`Real.sqrt` on nonnegative rationals): the comparisons `np.argmin` and
`np.argmax` perform on the square-rooted values coincide with those on the
squared values. -/

theorem argminAux_map [LinearOrder α] [LinearOrder β] (f : α → β) (xs : List α) :
    ∀ (best : α) (bi i : ℕ),
      (∀ a ∈ best :: xs, ∀ b ∈ best :: xs, (f a < f b ↔ a < b)) →
      argminAux (xs.map f) (f best) bi i = argminAux xs best bi i := by
  induction xs with
  | nil => intro best bi i _; rfl
  | cons y ys ih =>
    intro best bi i H
    rw [List.map_cons, argminAux, argminAux]
    have hcond : f y < f best ↔ y < best :=
      H y (by simp) best (by simp)
    by_cases hy : y < best
    · rw [if_pos (hcond.mpr hy), if_pos hy]
      exact ih y i (i + 1) (fun a ha b hb =>
        H a (by rcases List.mem_cons.mp ha with h | h <;> simp [h]) b (by rcases List.mem_cons.mp hb with h | h <;> simp [h]))
    · rw [if_neg (fun hc => hy (hcond.mp hc)), if_neg hy]
      exact ih best bi (i + 1) (fun a ha b hb =>
        H a (by rcases List.mem_cons.mp ha with h | h <;> simp [h]) b (by rcases List.mem_cons.mp hb with h | h <;> simp [h]))

theorem argminIdx_map [LinearOrder α] [LinearOrder β] (f : α → β) (l : List α)
    (H : ∀ a ∈ l, ∀ b ∈ l, (f a < f b ↔ a < b)) :
    argminIdx (l.map f) = argminIdx l := by
  match l with
  | [] => rfl
  | x :: xs =>
    rw [List.map_cons, argminIdx, argminIdx]
    exact argminAux_map f xs x 0 1 (fun a ha b hb =>
      H a (by rcases List.mem_cons.mp ha with h | h <;> simp [h]) b (by rcases List.mem_cons.mp hb with h | h <;> simp [h]))

theorem argmaxAux_map [LinearOrder α] [LinearOrder β] (f : α → β) (xs : List α) :
    ∀ (best : α) (bi i : ℕ),
      (∀ a ∈ best :: xs, ∀ b ∈ best :: xs, (f a < f b ↔ a < b)) →
      argmaxAux (xs.map f) (f best) bi i = argmaxAux xs best bi i := by
  induction xs with
  | nil => intro best bi i _; rfl
  | cons y ys ih =>
    intro best bi i H
    rw [List.map_cons, argmaxAux, argmaxAux]
    have hcond : f best < f y ↔ best < y :=
      H best (by simp) y (by simp)
    by_cases hy : best < y
    · rw [if_pos (hcond.mpr hy), if_pos hy]
      exact ih y i (i + 1) (fun a ha b hb =>
        H a (by rcases List.mem_cons.mp ha with h | h <;> simp [h]) b (by rcases List.mem_cons.mp hb with h | h <;> simp [h]))
    · rw [if_neg (fun hc => hy (hcond.mp hc)), if_neg hy]
      exact ih best bi (i + 1) (fun a ha b hb =>
        H a (by rcases List.mem_cons.mp ha with h | h <;> simp [h]) b (by rcases List.mem_cons.mp hb with h | h <;> simp [h]))

theorem argmaxIdx_map [LinearOrder α] [LinearOrder β] (f : α → β) (l : List α)
    (H : ∀ a ∈ l, ∀ b ∈ l, (f a < f b ↔ a < b)) :
    argmaxIdx (l.map f) = argmaxIdx l := by
  match l with
  | [] => rfl
  | x :: xs =>
    rw [List.map_cons, argmaxIdx, argmaxIdx]
    exact argmaxAux_map f xs x 0 1 (fun a ha b hb =>
      H a (by rcases List.mem_cons.mp ha with h | h <;> simp [h]) b (by rcases List.mem_cons.mp hb with h | h <;> simp [h]))

/-! ## Bridges between the `Real.sqrt`-valued definitions and their
rational computation twins -/

theorem sqDist_nonneg (p c : List ℚ) : 0 ≤ sqDist p c := by
  apply List.sum_nonneg
  intro x hx
  obtain ⟨t, _, rfl⟩ := List.mem_map.mp hx
  positivity

theorem sqDist_self (p : List ℚ) : sqDist p p = 0 := by
  induction p with
  | nil => rfl
  | cons x xs ih =>
    rw [sqDist] at ih ⊢
    rw [List.zip_cons_cons, List.map_cons, List.sum_cons, ih]
    ring

theorem sqDist_eq_zero_iff (p q : List ℚ) (h : p.length = q.length) :
    sqDist p q = 0 ↔ p = q := by
  constructor
  · intro h0
    apply List.ext_getElem h
    intro i h1 h2
    have hnn : ∀ x ∈ (p.zip q).map (fun t : ℚ × ℚ => (t.1 - t.2) ^ 2), 0 ≤ x := by
      intro x hx
      obtain ⟨u, _, rfl⟩ := List.mem_map.mp hx
      positivity
    have hlen : i < (p.zip q).length := by
      rw [List.length_zip]
      omega
    have hmem : ((p[i] - q[i]) ^ 2) ∈ (p.zip q).map (fun t : ℚ × ℚ => (t.1 - t.2) ^ 2) := by
      refine List.mem_map.mpr ⟨(p[i], q[i]), ?_, rfl⟩
      have hz : (p.zip q)[i] = (p[i], q[i]) := List.getElem_zip
      rw [← hz]
      exact List.getElem_mem hlen
    have hzero := List.all_zero_of_le_zero_le_of_sum_eq_zero hnn h0 hmem
    have hdiff : p[i] - q[i] = 0 := by
      have h2 : (2 : ℕ) ≠ 0 := two_ne_zero
      exact (pow_eq_zero_iff h2).mp hzero
    linarith
  · rintro rfl
    exact sqDist_self p

theorem sq1Dist_nonneg (p : List ℚ) (cj : ℚ) : 0 ≤ (p.map (fun x => (x - cj) ^ 2)).sum := by
  apply List.sum_nonneg
  intro x hx
  obtain ⟨t, _, rfl⟩ := List.mem_map.mp hx
  positivity

theorem sqrt_cast_lt_iff (a b : ℚ) (ha : 0 ≤ a) :
    Real.sqrt ((a : ℚ) : ℝ) < Real.sqrt ((b : ℚ) : ℝ) ↔ a < b := by
  rw [Real.sqrt_lt_sqrt_iff (by exact_mod_cast ha)]
  exact_mod_cast Iff.rfl

theorem argminIdx_sqrt (l : List ℚ) (hl : ∀ x ∈ l, 0 ≤ x) :
    argminIdx (l.map (fun q => Real.sqrt ((q : ℚ) : ℝ))) = argminIdx l :=
  argminIdx_map _ l (fun a ha b _ => sqrt_cast_lt_iff a b (hl a ha))

theorem argmaxIdx_sqrt (l : List ℚ) (hl : ∀ x ∈ l, 0 ≤ x) :
    argmaxIdx (l.map (fun q => Real.sqrt ((q : ℚ) : ℝ))) = argmaxIdx l :=
  argmaxIdx_map _ l (fun a ha b _ => sqrt_cast_lt_iff a b (hl a ha))

theorem assign_eq_assignQ (X C : Mat) : assign X C = assignQ X C := by
  rw [assign, assignQ, measure_dist, measure_distQ]
  split_ifs with h1 h2 h3
  · rfl
  · rfl
  · rfl
  · simp only [Except.map]
    congr 1
    rw [List.map_map, List.map_map]
    apply List.map_congr_left
    intro p _
    simp only [Function.comp]
    congr 1
    have hrow : (C.map (fun c => Real.sqrt ((sqDist p c : ℚ) : ℝ))) =
        (C.map (fun c => sqDist p c)).map (fun q => Real.sqrt ((q : ℚ) : ℝ)) := by
      rw [List.map_map]
      rfl
    rw [hrow, argminIdx_sqrt]
    intro x hx
    obtain ⟨c, _, rfl⟩ := List.mem_map.mp hx
    exact sqDist_nonneg p c

theorem measure_dist1_flatten_eq (X : Mat) (c : List ℚ) :
    (X.map (fun p => c.map (fun cj =>
      Real.sqrt (((p.map (fun x => (x - cj) ^ 2)).sum : ℚ) : ℝ)))).flatten =
    ((X.map (fun p => c.map (fun cj => (p.map (fun x => (x - cj) ^ 2)).sum))).flatten).map
      (fun q => Real.sqrt ((q : ℚ) : ℝ)) := by
  rw [List.map_flatten, List.map_map]
  congr 1
  apply List.map_congr_left
  intro p _
  simp only [Function.comp, List.map_map]
  rfl

theorem calc_centers_eq (X C : Mat) (L : List ℤ) :
    calc_centers X C L = calc_centersQ X C L := by
  rw [calc_centers, calc_centersQ]
  split_ifs with h1 h2
  · rfl
  · rfl
  · congr 1
    funext kk
    split_ifs with hkk
    · rw [measure_dist1, measure_dist1Q]
      split_ifs with hg
      · rfl
      · simp only [Except.map]
        congr 2
        rw [measure_dist1_flatten_eq, argmaxIdx_sqrt]
        intro x hx
        obtain ⟨row, hrow, hxrow⟩ := List.mem_flatten.mp hx
        obtain ⟨p, _, rfl⟩ := List.mem_map.mp hrow
        obtain ⟨cj, _, rfl⟩ := List.mem_map.mp hxrow
        exact sq1Dist_nonneg p cj
    · rfl

theorem fitLoopGo_eq (X : Mat) (fuel : ℕ) :
    ∀ (centers newCenters : Mat) (i : ℕ),
      fitLoopGo X fuel centers newCenters i = fitLoopQGo X fuel centers newCenters i := by
  induction fuel with
  | zero => intro c nc i; rfl
  | succ m ih =>
    intro c nc i
    rw [fitLoopGo, fitLoopQGo]
    by_cases hcond : sumDiff nc c ≠ 0 ∧ i < 20
    · rw [if_pos hcond, if_pos hcond, assign_eq_assignQ]
      cases hnl : assignQ X nc with
      | error e => rfl
      | ok nl =>
        dsimp only
        rw [calc_centers_eq]
        cases hnc : calc_centersQ X nc nl with
        | error e => rfl
        | ok nc2 =>
          dsimp only
          exact ih nc nc2 (i + 1)
    · rw [if_neg hcond, if_neg hcond]

theorem fitLoop_eq (X c nc : Mat) (i : ℕ) : fitLoop X c nc i = fitLoopQ X c nc i :=
  fitLoopGo_eq X (20 - i) c nc i

theorem fitAux_eq (X : Mat) (k : ℤ) (rng : RNG) : fitAux X k rng = fitAuxQ X k rng := by
  rw [fitAux, fitAuxQ]
  cases hc : init_centers X k rng with
  | error e => rfl
  | ok centers =>
    dsimp only
    rw [assign_eq_assignQ]
    cases hl : assignQ X centers with
    | error e => rfl
    | ok labels =>
      dsimp only
      rw [calc_centers_eq]
      cases hnc : calc_centersQ X centers labels with
      | error e => rfl
      | ok newCenters =>
        dsimp only
        rw [fitLoop_eq]

theorem fit_eq_fitQ (X : Mat) (k : ℤ) (rng : RNG) : fit X k rng = fitQ X k rng := by
  rw [fit, fitQ, fitAux_eq]

/-! ## The NaN layer

Floating-point inputs can contain NaN (`np.nan`); `ℚ` cannot.  The entry
points' treatment of NaN is embedded over `Option ℚ`, where `none` stands
for NaN and arithmetic propagates it, exactly as IEEE arithmetic does for
the operations the code performs (`+`, `-`, squaring, `np.sqrt`,
`np.sum`). -/

/-- A possibly-NaN value: `none` is NaN. -/
abbrev FltQ := Option ℚ

/-- NaN-propagating addition. -/
def addF : FltQ → FltQ → FltQ
  | some a, some b => some (a + b)
  | _, _ => none

/-- `np.sum` over all entries of a matrix: NaN iff some entry is NaN. -/
def sumFlatF (X : List (List FltQ)) : FltQ := (X.flatten).foldr addF (some 0)

/-- NaN-propagating `(x - c)**2`. -/
def subSqF : FltQ → FltQ → FltQ
  | some a, some b => some ((a - b) ^ 2)
  | _, _ => none

/-- `measure_dist(X, centers)` on possibly-NaN input: the source performs
no NaN check (its only guard is the row-count comparison), so NaN values
flow straight into the returned distance matrix. -/
noncomputable def measure_distF (X C : List (List FltQ)) :
    Except String (List (List (Option ℝ))) :=
  if X.length < C.length then .error "There are more centers than data points"
  else .ok (X.map (fun p => C.map (fun c =>
    (((p.zip c).map (fun t => subSqF t.1 t.2)).foldr addF (some 0)).map
      (fun q => Real.sqrt ((q : ℚ) : ℝ)))))

/-- Replace (absent) NaNs by `0`; used only under a no-NaN hypothesis,
where it is the identity embedding into the exact layer. -/
def stripNaN (X : List (List FltQ)) : Mat := X.map (fun r => r.map (fun o => o.getD 0))

/-- `fit(X, k)` including its NaN guard (source lines 230-232):
`np.isnan(np.sum(X))` is true exactly when some entry is NaN, and then
`raise Exception("Array contains non-numeric data")` fires before any
computation.  On NaN-free input the `Option` layer never produces `none`,
and the computation is the exact-layer `fit`. -/
noncomputable def fitF (X : List (List FltQ)) (k : ℤ) (rng : RNG) : Except String Mat :=
  if (sumFlatF X).isNone then .error "Array contains non-numeric data"
  else fit (stripNaN X) k rng

/-! ## Small helpers -/

theorem width_eq (X : Mat) (d : ℕ) (hX : Rect X d) (hne : X ≠ []) : width X = d := by
  match X with
  | r :: rs => exact hX r (by simp)

theorem getD_map (f : α → β) (l : List α) (j : ℕ) (hj : j < l.length) (e : α) (e' : β) :
    (l.map f).getD j e' = f (l.getD j e) := by
  rw [List.getD_eq_getElem _ _ (by simpa using hj), List.getD_eq_getElem _ _ hj]
  simp

/-! ## Claim C7: `measure_dist` contract -/

/-- **C7** (confirmed): for every rectangular point matrix `X` (`n×d`) and
center matrix `C` (`m×d`) with `m ≤ n`, `measure_dist(X, C)` succeeds and
returns an `n×m` matrix whose entry `(i, j)` is the Euclidean (L2) norm of
`X[i] − C[j]` — the square root of the sum over dimensions of squared
coordinate differences (`eucDist`); every entry is `≥ 0`, and the entry is
`0` whenever the point row equals the center row being compared. -/
theorem measure_dist_spec (X C : Mat) (d : ℕ) (hX : Rect X d) (hC : Rect C d)
    (hcount : C.length ≤ X.length) :
    ∃ D, measure_dist X C = .ok D ∧ D.length = X.length ∧
      (∀ row ∈ D, row.length = C.length) ∧
      (∀ i < X.length, ∀ j < C.length,
        (D.getD i []).getD j 0 = eucDist (X.getD i []) (C.getD j []) ∧
        0 ≤ (D.getD i []).getD j 0 ∧
        (X.getD i [] = C.getD j [] → (D.getD i []).getD j 0 = 0)) := by
  have hg : ¬X.length < C.length := by omega
  refine ⟨X.map (fun p => C.map (fun c => Real.sqrt ((sqDist p c : ℚ) : ℝ))),
    by rw [measure_dist, if_neg hg], by simp, ?_, ?_⟩
  · intro row hrow
    obtain ⟨p, _, rfl⟩ := List.mem_map.mp hrow
    simp
  · intro i hi j hj
    rw [getD_map _ X i hi [], getD_map _ C j hj []]
    refine ⟨rfl, Real.sqrt_nonneg _, ?_⟩
    intro heq
    rw [heq, sqDist_self]
    simp [eucDist, sqDist_self]

/-- Witness for `measure_dist_spec` at `X = [[0,0],[3,4]]`, `C = [[0,0]]`. -/
theorem measure_dist_spec_witness :
    ∃ D, measure_dist [[0, 0], [3, 4]] [[0, 0]] = .ok D ∧ D.length = 2 ∧
      (∀ row ∈ D, row.length = 1) ∧
      (∀ i < 2, ∀ j < 1,
        (D.getD i []).getD j 0 =
          eucDist ([[(0 : ℚ), 0], [3, 4]].getD i []) ([[(0 : ℚ), 0]].getD j []) ∧
        0 ≤ (D.getD i []).getD j 0 ∧
        ([[(0 : ℚ), 0], [3, 4]].getD i [] = [[(0 : ℚ), 0]].getD j [] →
          (D.getD i []).getD j 0 = 0)) := by
  have h := measure_dist_spec [[0, 0], [3, 4]] [[0, 0]] 2 (by decide) (by decide)
    (by decide)
  simpa using h

/-! ## Claim C5: `assign` contract -/

/-- **C5** (confirmed): for every rectangular `X` (`n×d`) and centers `C`
(`k×d`) of equal width with `1 ≤ k ≤ n` (the spec's data-model invariant
`k ≥ 1`), `assign(X, C)` succeeds with a length-`n` label vector whose
every entry lies in `[0, k)`; entry `i` is the smallest index minimizing
the Euclidean distance from `X[i]` to the centers (ties broken by lowest
index), so no center is strictly closer to `X[i]` than the labeled one. -/
theorem assign_spec (X C : Mat) (d : ℕ) (hX : Rect X d) (hC : Rect C d)
    (hk : 0 < C.length) (hkn : C.length ≤ X.length) :
    ∃ L, assign X C = .ok L ∧ L.length = X.length ∧
      ∀ i < X.length,
        (0 ≤ L.getD i 0 ∧ L.getD i 0 < (C.length : ℤ)) ∧
        (∀ j < C.length,
          eucDist (X.getD i []) (C.getD (L.getD i 0).toNat []) ≤
            eucDist (X.getD i []) (C.getD j [])) ∧
        (∀ j < (L.getD i 0).toNat,
          eucDist (X.getD i []) (C.getD (L.getD i 0).toNat []) <
            eucDist (X.getD i []) (C.getD j [])) := by
  have hXne : X ≠ [] := List.ne_nil_of_length_pos (by omega)
  have hCne : C ≠ [] := List.ne_nil_of_length_pos hk
  have hwX : width X = d := width_eq X d hX hXne
  have hwC : width C = d := width_eq C d hC hCne
  have hg1 : ¬width X ≠ width C := by rw [hwX, hwC]; simp
  have hg2 : ¬X.length < C.length := by omega
  have hg3 : ¬(C.isEmpty ∧ ¬X.isEmpty) := by
    intro hc
    exact absurd (List.isEmpty_iff.mp hc.1) hCne
  rw [assign, if_neg hg1, if_neg hg2, if_neg hg3, measure_dist, if_neg hg2]
  simp only [Except.map]
  refine ⟨_, rfl, by simp, ?_⟩
  intro i hi
  set p := X.getD i [] with hp
  have hDrow : ((X.map (fun p => C.map (fun c =>
      Real.sqrt ((sqDist p c : ℚ) : ℝ)))).map (fun row => (argminIdx row : ℤ))).getD i 0 =
      (argminIdx (C.map (fun c => Real.sqrt ((sqDist p c : ℚ) : ℝ))) : ℤ) := by
    rw [getD_map _ _ i (by simpa using hi) [], getD_map _ X i hi []]
  rw [hDrow]
  set row := C.map (fun c => Real.sqrt ((sqDist p c : ℚ) : ℝ)) with hrowdef
  have hrowne : row ≠ [] := by
    rw [hrowdef]
    simpa using hCne
  have hrowlen : row.length = C.length := by rw [hrowdef]; simp
  obtain ⟨hlt, hle, hfirst⟩ := argminIdx_spec (0 : ℝ) row hrowne
  have htoNat : ((argminIdx row : ℤ)).toNat = argminIdx row := Int.toNat_natCast _
  have hentry : ∀ j < C.length, row.getD j 0 = eucDist p (C.getD j []) := by
    intro j hj
    rw [hrowdef, getD_map _ C j hj []]
    rfl
  refine ⟨⟨by positivity, by exact_mod_cast hrowlen ▸ hlt⟩, ?_, ?_⟩
  · intro j hj
    rw [htoNat, ← hentry j hj, ← hentry (argminIdx row) (by omega)]
    exact hle j (by omega)
  · intro j hj
    rw [htoNat] at hj ⊢
    have hjC : j < C.length := by omega
    rw [← hentry (argminIdx row) (by omega), ← hentry j hjC]
    exact hfirst j hj

/-- Witness for `assign_spec` at `X = [[0],[9],[5]]`, `C = [[0],[9]]`. -/
theorem assign_spec_witness :
    ∃ L, assign [[0], [9], [5]] [[0], [9]] = .ok L ∧ L.length = 3 ∧
      ∀ i < 3,
        (0 ≤ L.getD i 0 ∧ L.getD i 0 < (2 : ℤ)) ∧
        (∀ j < 2,
          eucDist ([[(0 : ℚ)], [9], [5]].getD i []) ([[(0 : ℚ)], [9]].getD (L.getD i 0).toNat []) ≤
            eucDist ([[(0 : ℚ)], [9], [5]].getD i []) ([[(0 : ℚ)], [9]].getD j [])) ∧
        (∀ j < (L.getD i 0).toNat,
          eucDist ([[(0 : ℚ)], [9], [5]].getD i []) ([[(0 : ℚ)], [9]].getD (L.getD i 0).toNat []) <
            eucDist ([[(0 : ℚ)], [9], [5]].getD i []) ([[(0 : ℚ)], [9]].getD j [])) := by
  have h := assign_spec [[0], [9], [5]] [[0], [9]] 1 (by decide) (by decide) (by decide)
    (by decide)
  simpa using h

/-! ## Claim C8: validation of `k` -/

/-- After its two guards pass, the selection loop of `init_centers` can
only fail with the degenerate-probability error of `np.random.choice`. -/
theorem init_aux_cases (X : Mat) (rng : RNG) (m : ℕ) :
    ∀ ind, (∃ l, init_aux X rng m ind = .ok l) ∨
      init_aux X rng m ind = .error "probabilities do not sum to 1" := by
  induction m with
  | zero => intro ind; exact .inl ⟨ind, rfl⟩
  | succ mm ih =>
    intro ind
    rw [init_aux, init_step]
    by_cases hp : (initProbs X (chosenCenters X ind) ind).sum ≠ 1
    · right
      rw [if_pos hp]
      rfl
    · rw [if_neg hp]
      exact ih _

/-- **C8** (confirmed): `init_centers` fails with the `k`-validation errors
when `k > n` or `k ≤ 0`; `fit(X, 0)` fails with the "positive integer"
error (through `init_centers`); and for an integer `0 < k ≤ n` the call
does not fail on those grounds.  (The `isinstance(k, int)` guard of `fit`
is satisfied by every value of the embedding type `ℤ` of `k`.) -/
theorem k_validation_spec (X : Mat) (k : ℤ) (rng : RNG) :
    (k > (X.length : ℤ) →
      init_centers X k rng =
        .error "Number of clusters must be less than number of data points") ∧
    (k ≤ 0 →
      init_centers X k rng = .error "Number of clusters must be a positive integer") ∧
    (fit X 0 rng = .error "Number of clusters must be a positive integer") ∧
    (0 < k → k ≤ (X.length : ℤ) →
      init_centers X k rng ≠
        .error "Number of clusters must be less than number of data points" ∧
      init_centers X k rng ≠
        .error "Number of clusters must be a positive integer") := by
  refine ⟨?_, ?_, ?_, ?_⟩
  · intro hk
    rw [init_centers, if_pos hk]
  · intro hk
    rw [init_centers, if_neg (by omega), if_pos hk]
  · have h0 : init_centers X 0 rng =
        .error "Number of clusters must be a positive integer" := by
      rw [init_centers, if_neg (by omega), if_pos (by omega)]
    rw [fit, fitAux, h0]
    rfl
  · intro hk1 hk2
    rw [init_centers, if_neg (by omega), if_neg (by omega)]
    rcases init_aux_cases X rng (k.toNat - 1) [rng.first % X.length] with ⟨l, hl⟩ | he
    · rw [hl]
      constructor <;> intro hcon <;> exact Except.noConfusion hcon
    · rw [he]
      constructor <;> intro hcon <;> exact absurd (Except.error.inj hcon) (by decide)

/-- Witness for `k_validation_spec` at `X = [[0],[1]]`, `k = 3`. -/
theorem k_validation_spec_witness :
    ((3 : ℤ) > ((2 : ℕ) : ℤ) →
      init_centers [[0], [1]] 3 ⟨0, fun _ _ => 0⟩ =
        .error "Number of clusters must be less than number of data points") ∧
    ((3 : ℤ) ≤ 0 →
      init_centers [[0], [1]] 3 ⟨0, fun _ _ => 0⟩ =
        .error "Number of clusters must be a positive integer") ∧
    (fit [[0], [1]] 0 ⟨0, fun _ _ => 0⟩ =
      .error "Number of clusters must be a positive integer") ∧
    ((0 : ℤ) < 3 → (3 : ℤ) ≤ ((2 : ℕ) : ℤ) →
      init_centers [[0], [1]] 3 ⟨0, fun _ _ => 0⟩ ≠
        .error "Number of clusters must be less than number of data points" ∧
      init_centers [[0], [1]] 3 ⟨0, fun _ _ => 0⟩ ≠
        .error "Number of clusters must be a positive integer") := by
  have h := k_validation_spec [[0], [1]] 3 ⟨0, fun _ _ => 0⟩
  simpa using h

/-! ## Claim C3: the iteration cap of `fit` -/

/-- The loop of `fit` entered with counter `i` and fuel `20 - i` stops
with a final counter between `i` and `20`, and at the stop either the
summed coordinate difference of the last two center matrices is exactly
zero or the counter has hit the cap `20`. -/
theorem fitLoopGo_spec (X : Mat) (fuel : ℕ) :
    ∀ c nc i c' nc' i', i + fuel = 20 →
      fitLoopGo X fuel c nc i = .ok (c', nc', i') →
      i ≤ i' ∧ i' ≤ 20 ∧ (sumDiff nc' c' = 0 ∨ i' = 20) := by
  induction fuel with
  | zero =>
    intro c nc i c' nc' i' hfi h
    rw [fitLoopGo] at h
    obtain ⟨rfl, rfl, rfl⟩ : c = c' ∧ nc = nc' ∧ i = i' := by
      have := Except.ok.inj h
      refine ⟨congrArg (fun t => t.1) this, congrArg (fun t => t.2.1) this,
        congrArg (fun t => t.2.2) this⟩
    omega
  | succ m ih =>
    intro c nc i c' nc' i' hfi h
    rw [fitLoopGo] at h
    by_cases hcond : sumDiff nc c ≠ 0 ∧ i < 20
    · rw [if_pos hcond] at h
      cases has : assign X nc with
      | error e => rw [has] at h; exact absurd h (by simp)
      | ok nl =>
        rw [has] at h
        dsimp only at h
        cases hcc : calc_centers X nc nl with
        | error e => rw [hcc] at h; exact absurd h (by simp)
        | ok nc2 =>
          rw [hcc] at h
          dsimp only at h
          have hs := ih nc nc2 (i + 1) c' nc' i' (by omega) h
          exact ⟨by omega, hs.2.1, hs.2.2⟩
    · rw [if_neg hcond] at h
      obtain ⟨rfl, rfl, rfl⟩ : c = c' ∧ nc = nc' ∧ i = i' := by
        have := Except.ok.inj h
        refine ⟨congrArg (fun t => t.1) this, congrArg (fun t => t.2.1) this,
          congrArg (fun t => t.2.2) this⟩
      have hsum : sumDiff nc c = 0 := by
        rcases not_and_or.mp hcond with ha | hb
        · exact not_not.mp ha
        · omega
      exact ⟨le_refl _, by omega, .inl hsum⟩

/-- **C3** (confirmed): whenever `fit` returns, it has performed at most 20
assign/recompute iterations (the ghost counter `i` of `fitAux` satisfies
`1 ≤ i ≤ 20`), it stopped because either the signed sum of all coordinate
differences between the new and the previous center matrix
(`np.sum(new_centers - centers)`) is exactly zero or the counter reached
20, whichever came first, and the value returned is the latest center
matrix `new_centers`.  Termination itself is structural in the embedding:
`fitLoopGo` consumes the fuel `20 - i`. -/
theorem fit_iteration_cap (X : Mat) (k : ℤ) (rng : RNG) (c nc : Mat) (i : ℕ)
    (h : fitAux X k rng = .ok (c, nc, i)) :
    1 ≤ i ∧ i ≤ 20 ∧ (sumDiff nc c = 0 ∨ i = 20) ∧ fit X k rng = .ok nc := by
  have hfit : fit X k rng = .ok nc := by
    rw [fit, h]
    rfl
  rw [fitAux] at h
  cases h1 : init_centers X k rng with
  | error e => rw [h1] at h; simp at h
  | ok centers =>
    rw [h1] at h
    dsimp only at h
    cases h2 : assign X centers with
    | error e => rw [h2] at h; simp at h
    | ok labels =>
      rw [h2] at h
      dsimp only at h
      cases h3 : calc_centers X centers labels with
      | error e => rw [h3] at h; simp at h
      | ok newCenters =>
        rw [h3] at h
        dsimp only at h
        rw [fitLoop] at h
        have hs := fitLoopGo_spec X (20 - 1) centers newCenters 1 c nc i (by omega) h
        exact ⟨hs.1, hs.2.1, hs.2.2, hfit⟩

/-- Witness for `fit_iteration_cap`: a concrete run that converges after 2
iterations. -/
theorem fit_iteration_cap_witness :
    1 ≤ 2 ∧ 2 ≤ 20 ∧ (sumDiff [[(1 : ℚ)/2]] [[(1 : ℚ)/2]] = 0 ∨ 2 = 20) ∧
      fit [[0], [1]] 1 ⟨0, fun _ _ => 0⟩ = .ok [[(1 : ℚ)/2]] :=
  fit_iteration_cap [[0], [1]] 1 ⟨0, fun _ _ => 0⟩ [[(1 : ℚ)/2]] [[(1 : ℚ)/2]] 2
    (by rw [fitAux_eq]; decide)

/-! ## Claim C6: where the NaN guard lives -/

/-- **C6 counterexample**: `measure_dist` is a public entry point, and on
an input `X` containing a NaN it does **not** fail — it returns a distance
matrix with NaN inside.  Only `fit`/`fit_assign` perform the
`np.isnan(np.sum(X))` check (source lines 230-232 and 293-295);
`init_centers`, `assign`, `measure_dist` and `calc_centers` have no such
guard, so the claim that every public entry point fails on NaN is false. -/
theorem measure_dist_accepts_nan_cex :
    (sumFlatF [[none]]).isNone = true ∧
    measure_distF [[none]] [[some 0]] = .ok [[none]] := by
  exact ⟨rfl, rfl⟩

/-- **C6 amended**: the NaN invariant is enforced only by `fit` (and
`fit_assign`, which calls `fit` first): on any `X` containing a NaN, `fit`
fails with the non-numeric-data error before any computation, while
`measure_dist` — given its only guard, the row-count comparison, passes —
succeeds on the same NaN-containing input. -/
theorem nan_guard_only_in_fit (X : List (List FltQ)) (k : ℤ) (rng : RNG)
    (C : List (List FltQ)) (hnan : (sumFlatF X).isNone = true)
    (hcount : C.length ≤ X.length) :
    fitF X k rng = .error "Array contains non-numeric data" ∧
    ∃ D, measure_distF X C = .ok D := by
  constructor
  · rw [fitF, if_pos hnan]
  · rw [measure_distF, if_neg (by omega)]
    exact ⟨_, rfl⟩

/-- Witness for `nan_guard_only_in_fit` at `X = [[NaN]]`, `C = [[0]]`. -/
theorem nan_guard_only_in_fit_witness :
    fitF [[none]] 1 ⟨0, fun _ _ => 0⟩ = .error "Array contains non-numeric data" ∧
    ∃ D, measure_distF [[none]] [[some 0]] = .ok D :=
  nan_guard_only_in_fit [[none]] 1 ⟨0, fun _ _ => 0⟩ [[some 0]] (by rfl) (by decide)

/-! ## Claim C4: no seed parameter, no reproducibility -/

/-- **C4** (code bug): the source provides no seed or generator parameter —
`init_centers(X, k)` and `fit(X, k)` consume the ambient global random
state (`random.randint` on line 44, `np.random.choice` on line 64).
Embedding that ambient state as the explicit oracle `RNG`, the value `fit`
returns genuinely depends on the drawn values: two runs consuming
different ambient draws return different center matrices, so a caller has
no parameter with which to force the determinism the spec requires
("provide an optional seed/generator parameter for reproducible
testing"). -/
theorem fit_depends_on_ambient_randomness :
    fit [[0], [1], [10]] 2 ⟨0, fun _ _ => 2⟩ ≠ fit [[0], [1], [10]] 2 ⟨2, fun _ _ => 0⟩ := by
  rw [fit_eq_fitQ, fit_eq_fitQ]
  decide

/-! ## Claim C2: the k-means++ selection weights -/

/-- **C2 counterexample**: a reachable `init_centers` state in which a
not-yet-selected point coinciding with a chosen center has selection
probability `1`, not `0`.  On `X = [[0],[0],[3]]` with indices `0` and `2`
already selected (first draw `0`, second draw `2`), point `1` coincides
with the chosen center `X[0] = [0]`; the `0 → ∞` replacement erases that
zero distance, the row minimum falls back to its squared distance `9` to
the other center, and after normalisation the probability vector is
`[0, 1, 0]`.  The full run then must select the coincident point as the
third center. -/
theorem init_probs_coincident_point_cex :
    initProbs [[0], [0], [3]] (chosenCenters [[0], [0], [3]] [0, 2]) [0, 2] = [0, 1, 0] ∧
    ([[0], [0], [3]] : Mat).getD 1 [] = (chosenCenters [[0], [0], [3]] [0, 2]).getD 0 [] ∧
    (1 : ℕ) ∉ ([0, 2] : List ℕ) ∧
    init_centers [[0], [0], [3]] 3 ⟨0, fun s _ => if s = 1 then 2 else 1⟩ =
      .ok [[0], [3], [0]] := ⟨by decide, by decide, by decide, by decide⟩

theorem foldr_minInf_none (l : List (Option ℚ)) (h : ∀ x ∈ l, x = none) :
    l.foldr minInf none = none := by
  induction l with
  | nil => rfl
  | cons x xs ih =>
    rw [List.foldr_cons, ih (fun y hy => h y (by simp [hy])), h x (by simp)]
    rfl

/-- The `0 → ∞` / row-minimum / `∞ → 0` pipeline of `init_centers`
computes the least **nonzero** element of the row (and `0` when every
element is zero). -/
theorem foldr_minInf_spec (l : List ℚ) :
    ((l.map zeroToInf).foldr minInf none = none ∧ ∀ q ∈ l, q = 0) ∨
    (∃ m, (l.map zeroToInf).foldr minInf none = some m ∧ m ∈ l ∧ m ≠ 0 ∧
      ∀ q ∈ l, q ≠ 0 → m ≤ q) := by
  induction l with
  | nil => exact .inl ⟨rfl, by simp⟩
  | cons x xs ih =>
    rw [List.map_cons, List.foldr_cons]
    simp only [zeroToInf]
    by_cases hx : x = 0
    · rw [if_pos hx]
      rcases ih with ⟨h1, h2⟩ | ⟨m, h1, h2, h3, h4⟩
      · left
        rw [h1]
        refine ⟨rfl, ?_⟩
        intro q hq
        rcases List.mem_cons.mp hq with rfl | hq'
        · exact hx
        · exact h2 q hq'
      · right
        rw [h1]
        refine ⟨m, rfl, by simp [h2], h3, ?_⟩
        intro q hq hq0
        rcases List.mem_cons.mp hq with rfl | hq'
        · exact absurd hx hq0
        · exact h4 q hq' hq0
    · rw [if_neg hx]
      rcases ih with ⟨h1, h2⟩ | ⟨m, h1, h2, h3, h4⟩
      · rw [h1]
        right
        refine ⟨x, rfl, by simp, hx, ?_⟩
        intro q hq hq0
        rcases List.mem_cons.mp hq with rfl | hq'
        · exact le_refl _
        · exact absurd (h2 q hq') hq0
      · rw [h1]
        right
        refine ⟨min x m, rfl, ?_, ?_, ?_⟩
        · rcases min_choice x m with hmin | hmin <;> rw [hmin]
          · simp
          · simp [h2]
        · rcases min_choice x m with hmin | hmin <;> rw [hmin]
          · exact hx
          · exact h3
        · intro q hq hq0
          rcases List.mem_cons.mp hq with rfl | hq'
          · exact min_le_left _ _
          · exact le_trans (min_le_right _ _) (h4 q hq' hq0)

/-- **C2 amended**: in the selection of each center after the first, a
point already selected gets weight (hence probability) `0`; a point not
yet selected gets weight equal to the least **nonzero** squared Euclidean
distance to the already-chosen centers — so a not-yet-selected point that
coincides with a chosen center receives its distance to the nearest
non-coincident chosen center, not zero — and weight `0` exactly when its
distance to every chosen center is zero; the sampling probabilities are
these weights divided by their sum. -/
theorem init_weights_spec (X : Mat) (ind : List ℕ) (i : ℕ) (hi : i < X.length) :
    (i ∈ ind → (initWeights X (chosenCenters X ind) ind).getD i 0 = 0) ∧
    (i ∉ ind →
      ((initWeights X (chosenCenters X ind) ind).getD i 0 = 0 ∧
        (∀ q ∈ (chosenCenters X ind).map (fun c => sqDist (X.getD i []) c), q = 0)) ∨
      ((initWeights X (chosenCenters X ind) ind).getD i 0 ∈
          (chosenCenters X ind).map (fun c => sqDist (X.getD i []) c) ∧
        (initWeights X (chosenCenters X ind) ind).getD i 0 ≠ 0 ∧
        ∀ q ∈ (chosenCenters X ind).map (fun c => sqDist (X.getD i []) c), q ≠ 0 →
          (initWeights X (chosenCenters X ind) ind).getD i 0 ≤ q)) ∧
    initProbs X (chosenCenters X ind) ind =
      (initWeights X (chosenCenters X ind) ind).map
        (fun x => x / (initWeights X (chosenCenters X ind) ind).sum) := by
  have hget : ∀ (g : ℕ → ℚ), ((List.range X.length).map g).getD i 0 = g i := by
    intro g
    rw [getD_map g _ i (by simpa using hi) 0]
    congr 1
    rw [List.getD_eq_getElem _ _ (by simpa using hi)]
    simp
  refine ⟨?_, ?_, rfl⟩
  · intro hmem
    rw [initWeights, hget]
    rw [if_pos hmem]
    dsimp only
    have hnone : ((chosenCenters X ind).map (fun _ => (0 : ℚ))).map zeroToInf =
        (chosenCenters X ind).map (fun _ => (none : Option ℚ)) := by
      rw [List.map_map]
      apply List.map_congr_left
      intro c _
      simp [Function.comp, zeroToInf]
    rw [hnone, foldr_minInf_none]
    · rfl
    · intro x hx
      obtain ⟨c, _, rfl⟩ := List.mem_map.mp hx
      rfl
  · intro hmem
    rw [initWeights, hget, if_neg hmem]
    dsimp only
    rcases foldr_minInf_spec ((chosenCenters X ind).map (fun c => sqDist (X.getD i []) c))
      with ⟨h1, h2⟩ | ⟨m, h1, h2, h3, h4⟩
    · left
      rw [h1]
      exact ⟨rfl, h2⟩
    · right
      rw [h1]
      exact ⟨h2, h3, h4⟩

/-- Witness for `init_weights_spec` at the counterexample configuration. -/
theorem init_weights_spec_witness :
    ((1 : ℕ) ∈ ([0, 2] : List ℕ) →
      (initWeights [[0], [0], [3]] (chosenCenters [[0], [0], [3]] [0, 2]) [0, 2]).getD 1 0 = 0) ∧
    ((1 : ℕ) ∉ ([0, 2] : List ℕ) →
      ((initWeights [[0], [0], [3]] (chosenCenters [[0], [0], [3]] [0, 2]) [0, 2]).getD 1 0 = 0 ∧
        (∀ q ∈ (chosenCenters [[0], [0], [3]] [0, 2]).map
            (fun c => sqDist (([[0], [0], [3]] : Mat).getD 1 []) c), q = 0)) ∨
      ((initWeights [[0], [0], [3]] (chosenCenters [[0], [0], [3]] [0, 2]) [0, 2]).getD 1 0 ∈
          (chosenCenters [[0], [0], [3]] [0, 2]).map
            (fun c => sqDist (([[0], [0], [3]] : Mat).getD 1 []) c) ∧
        (initWeights [[0], [0], [3]] (chosenCenters [[0], [0], [3]] [0, 2]) [0, 2]).getD 1 0 ≠ 0 ∧
        ∀ q ∈ (chosenCenters [[0], [0], [3]] [0, 2]).map
            (fun c => sqDist (([[0], [0], [3]] : Mat).getD 1 []) c), q ≠ 0 →
          (initWeights [[0], [0], [3]] (chosenCenters [[0], [0], [3]] [0, 2]) [0, 2]).getD 1 0 ≤ q)) ∧
    initProbs [[0], [0], [3]] (chosenCenters [[0], [0], [3]] [0, 2]) [0, 2] =
      (initWeights [[0], [0], [3]] (chosenCenters [[0], [0], [3]] [0, 2]) [0, 2]).map
        (fun x => x / (initWeights [[0], [0], [3]] (chosenCenters [[0], [0], [3]] [0, 2]) [0, 2]).sum) :=
  init_weights_spec [[0], [0], [3]] [0, 2] 1 (by decide)

/-! ## Claim C10: `calc_centers` and label validation -/

theorem except_bind_ok {α β : Type} (x : Except String α) (g : α → Except String β) (b : β) :
    x >>= g = .ok b ↔ ∃ a, x = .ok a ∧ g a = .ok b := by
  cases x with
  | error e =>
    constructor
    · intro h
      exact absurd h (by intro hc; exact Except.noConfusion hc)
    · rintro ⟨a, ha, _⟩
      exact Except.noConfusion ha
  | ok a =>
    constructor
    · intro h
      exact ⟨a, rfl, h⟩
    · rintro ⟨a2, ha2, hg⟩
      cases Except.ok.inj ha2
      exact hg

theorem mapM_except_congr {α : Type} (f g : ℕ → Except String α) :
    ∀ l : List ℕ, (∀ x ∈ l, f x = g x) → l.mapM f = l.mapM g := by
  intro l
  induction l with
  | nil => intro _; rfl
  | cons a as ih =>
    intro h
    rw [List.mapM_cons, List.mapM_cons, h a (by simp), ih (fun x hx => h x (by simp [hx]))]

theorem mapM_except_ok_of_all {α : Type} (f : ℕ → Except String α) :
    ∀ l : List ℕ, (∀ x ∈ l, ∃ r, f x = .ok r) → ∃ R, l.mapM f = .ok R := by
  intro l
  induction l with
  | nil => intro _; exact ⟨[], by rw [List.mapM_nil]; rfl⟩
  | cons a as ih =>
    intro h
    obtain ⟨b, hb⟩ := h a (by simp)
    obtain ⟨bs, hbs⟩ := ih (fun x hx => h x (by simp [hx]))
    refine ⟨b :: bs, ?_⟩
    rw [List.mapM_cons]
    exact (except_bind_ok _ _ _).mpr ⟨b, hb, (except_bind_ok _ _ _).mpr ⟨bs, hbs, rfl⟩⟩

theorem mapM_except_ok_spec {α : Type} (f : ℕ → Except String α) :
    ∀ (l : List ℕ) (R : List α), l.mapM f = .ok R →
      R.length = l.length ∧
      ∀ (i : ℕ) (e : α), i < l.length → ∃ r, f (l.getD i 0) = .ok r ∧ R.getD i e = r := by
  intro l
  induction l with
  | nil =>
    intro R h
    rw [List.mapM_nil] at h
    cases Except.ok.inj h
    exact ⟨rfl, by intro i e hi; simp at hi⟩
  | cons a as ih =>
    intro R h
    rw [List.mapM_cons] at h
    obtain ⟨b, hb, h2⟩ := (except_bind_ok _ _ _).mp h
    obtain ⟨bs, hbs, h3⟩ := (except_bind_ok _ _ _).mp h2
    cases Except.ok.inj h3
    obtain ⟨hlen, hspec⟩ := ih bs hbs
    refine ⟨by simp [hlen], ?_⟩
    intro i e hi
    match i with
    | 0 => exact ⟨b, by simpa using hb, rfl⟩
    | Nat.succ i =>
      have hres := hspec i e (by simpa using hi)
      simpa using hres

/-- Two label vectors that agree on which positions carry the value `j`
produce the same cluster. -/
theorem clusterPts_congr (j : ℤ) :
    ∀ (X : Mat) (L L' : List ℤ), L.length = X.length → L'.length = X.length →
      (∀ i < X.length, (L.getD i 0 = j ↔ L'.getD i 0 = j)) →
      clusterPts X L j = clusterPts X L' j := by
  intro X
  induction X with
  | nil =>
    intro L L' hL hL' _
    rw [List.length_nil] at hL hL'
    rw [List.eq_nil_of_length_eq_zero hL, List.eq_nil_of_length_eq_zero hL']
  | cons x xs ih =>
    intro L L' hL hL' hag
    match L, L' with
    | a :: as, b :: bs =>
      have h0 : (a = j) ↔ (b = j) := by simpa using hag 0 (by simp)
      have htail : clusterPts xs as j = clusterPts xs bs j :=
        ih as bs (by simpa using hL) (by simpa using hL')
          (fun i hi => by simpa using hag (i + 1) (by simpa using hi))
      simp only [clusterPts, List.zip_cons_cons, List.filter_cons] at htail ⊢
      by_cases ha : a = j
      · rw [if_pos (by simpa using ha), if_pos (by simpa using h0.mp ha)]
        simp only [List.map_cons]
        rw [htail]
      · rw [if_neg (by simpa using ha), if_neg (by simpa using fun hb => ha (h0.mpr hb))]
        exact htail

/-- `(∀ i, L[i] ≠ j)` makes cluster `j` empty. -/
theorem clusterPts_eq_nil (X : Mat) (L : List ℤ) (j : ℤ) (hlen : L.length = X.length)
    (h : ∀ i < X.length, L.getD i 0 ≠ j) : clusterPts X L j = [] := by
  rw [clusterPts, List.map_eq_nil_iff, List.filter_eq_nil_iff]
  intro t ht
  rw [List.mem_iff_getElem] at ht
  obtain ⟨i, hi, hti⟩ := ht
  have hiX : i < X.length := by
    rw [List.length_zip] at hi
    omega
  have hz : (X.zip L)[i] = (X[i], L[i]) := List.getElem_zip
  rw [hz] at hti
  have ht2 : t.2 = L[i] := by rw [← hti]
  rw [ht2]
  have : L.getD i 0 = L[i] := List.getD_eq_getElem L 0 (by omega)
  rw [← this]
  simpa using h i hiX

theorem flatten_length_uniform {α : Type} (M : List (List α)) (d : ℕ)
    (hM : ∀ r ∈ M, r.length = d) : M.flatten.length = M.length * d := by
  induction M with
  | nil => simp
  | cons r rs ih =>
    rw [List.flatten_cons, List.length_append, hM r (by simp),
      ih (fun q hq => hM q (by simp [hq])), List.length_cons]
    ring

theorem rect_getD_length (C : Mat) (d : ℕ) (hC : Rect C d) (kk : ℕ) (hkk : kk < C.length) :
    (C.getD kk []).length = d := by
  rw [List.getD_eq_getElem _ _ hkk]
  exact hC _ (List.getElem_mem hkk)

theorem width_eq_of_le (X : Mat) (d : ℕ) (hX : Rect X d) (hd : d ≤ X.length) :
    width X = d := by
  match X with
  | [] =>
    have : d = 0 := by simpa using hd
    simp [width, this]
  | r :: rs => exact hX r (by simp)

/-- **C10 counterexample**: an out-of-range label value *can* make
`calc_centers` raise.  On `X = [[0,0]]` (one point, two dimensions),
`C = [[0,0]]`, the out-of-range label `5` leaves cluster `0` empty, the
fallback calls `measure_dist(X, centers[0])` on the 1-D row `[0,0]` —
which numpy reads as two "centers" against one point — and the
more-centers-than-points guard raises; with the in-range label `0` the
same call succeeds. -/
theorem calc_centers_out_of_range_label_cex :
    calc_centers [[0, 0]] [[0, 0]] [5] = .error "There are more centers than data points" ∧
    calc_centers [[0, 0]] [[0, 0]] [0] = .ok [[0, 0]] := by
  constructor <;> (rw [calc_centers_eq]; decide)

/-- **C10 amended**: provided the width `d` does not exceed the point
count `n` (so the fallback's transposed `measure_dist` call passes its
guard), `calc_centers` performs no validation of label values and never
raises: labels may lie anywhere in `ℤ`; the result only depends on the
in-range label assignments (any relabeling that preserves them, moving
labels between out-of-range values arbitrarily, gives the same output);
a point with an out-of-range label contributes to no cluster mean; a
cluster index matched by no label receives the empty-cluster fallback
row, which is a row of `X`; and a cluster with members gets their
per-dimension mean. -/
theorem calc_centers_label_spec (X C : Mat) (L : List ℤ) (d : ℕ)
    (hX : Rect X d) (hC : Rect C d) (hk : 0 < C.length)
    (hlen : L.length = X.length) (hd : d ≤ X.length) :
    ∃ R, calc_centers X C L = .ok R ∧ R.length = C.length ∧
      (∀ L' : List ℤ, L'.length = X.length →
        (∀ i < X.length,
          ((0 ≤ L.getD i 0 ∧ L.getD i 0 < (C.length : ℤ)) → L'.getD i 0 = L.getD i 0) ∧
          ((0 ≤ L'.getD i 0 ∧ L'.getD i 0 < (C.length : ℤ)) → L'.getD i 0 = L.getD i 0)) →
        calc_centers X C L' = .ok R) ∧
      (0 < d → ∀ j < C.length, (∀ i < X.length, L.getD i 0 ≠ (j : ℤ)) →
        R.getD j [] ∈ X) ∧
      (∀ j < C.length, clusterPts X L (Int.ofNat j) ≠ [] →
        R.getD j [] = meanRow (clusterPts X L (Int.ofNat j)) d) := by
  have hwX : width X = d := width_eq_of_le X d hX hd
  have hwC : width C = d := width_eq C d hC (List.ne_nil_of_length_pos hk)
  have hguard1 : ¬X.length ≠ L.length := by omega
  have hguard2 : ¬width X ≠ width C := by rw [hwX, hwC]; simp
  have hbody : ∀ (M : List ℤ), M.length = X.length → calc_centers X C M =
      (List.range C.length).mapM (fun kk =>
        if 0 < d ∧ clusterPts X M (Int.ofNat kk) = [] then
          (measure_dist1 X (C.getD kk [])).map
            (fun D => X.getD (argmaxIdx D.flatten / d) [])
        else .ok (meanRow (clusterPts X M (Int.ofNat kk)) d)) := by
    intro M hM
    rw [calc_centers, if_neg (by omega), if_neg hguard2, hwX]
  have hok : ∀ kk ∈ List.range C.length, ∃ r,
      (if 0 < d ∧ clusterPts X L (Int.ofNat kk) = [] then
        (measure_dist1 X (C.getD kk [])).map
          (fun D => X.getD (argmaxIdx D.flatten / d) [])
      else .ok (meanRow (clusterPts X L (Int.ofNat kk)) d)) = .ok r := by
    intro kk hkk
    rw [List.mem_range] at hkk
    by_cases hcond : 0 < d ∧ clusterPts X L (Int.ofNat kk) = []
    · rw [if_pos hcond, measure_dist1,
        if_neg (by rw [rect_getD_length C d hC kk hkk]; omega)]
      exact ⟨_, rfl⟩
    · rw [if_neg hcond]
      exact ⟨_, rfl⟩
  obtain ⟨R, hR⟩ := mapM_except_ok_of_all _ (List.range C.length) hok
  obtain ⟨hRlen, hRspec⟩ := mapM_except_ok_spec _ (List.range C.length) R hR
  have hrangeD : ∀ j < C.length, (List.range C.length).getD j 0 = j := by
    intro j hj
    rw [List.getD_eq_getElem _ _ (by simpa using hj)]
    simp
  refine ⟨R, by rw [hbody L hlen]; exact hR, by simpa using hRlen, ?_, ?_, ?_⟩
  · intro L2 hL2 hag
    rw [hbody L2 hL2, ← hR]
    apply mapM_except_congr
    intro kk hkk
    rw [List.mem_range] at hkk
    have hcl : clusterPts X L (Int.ofNat kk) = clusterPts X L2 (Int.ofNat kk) := by
      apply clusterPts_congr _ X L L2 hlen hL2
      intro i hi
      constructor
      · intro hLi
        have hin : 0 ≤ L.getD i 0 ∧ L.getD i 0 < (C.length : ℤ) := by
          rw [hLi]
          constructor
          · exact Int.ofNat_nonneg kk
          · exact Int.ofNat_lt.mpr hkk
        rw [(hag i hi).1 hin, hLi]
      · intro hLi
        have hin : 0 ≤ L2.getD i 0 ∧ L2.getD i 0 < (C.length : ℤ) := by
          rw [hLi]
          constructor
          · exact Int.ofNat_nonneg kk
          · exact Int.ofNat_lt.mpr hkk
        rw [← (hag i hi).2 hin, hLi]
    rw [hcl]
  · intro hd0 j hj hnone
    obtain ⟨r, hfj, hRj⟩ := hRspec j [] (by simpa using hj)
    rw [hrangeD j hj] at hfj
    have hempty : clusterPts X L (Int.ofNat j) = [] := by
      apply clusterPts_eq_nil X L _ hlen
      intro i hi
      simpa using hnone i hi
    rw [if_pos ⟨hd0, hempty⟩, measure_dist1,
      if_neg (by rw [rect_getD_length C d hC j hj]; omega)] at hfj
    simp only [Except.map] at hfj
    have hr : r = X.getD (argmaxIdx (X.map (fun p => (C.getD j []).map (fun cj =>
        Real.sqrt (((p.map (fun x => (x - cj) ^ 2)).sum : ℚ) : ℝ)))).flatten / d) [] :=
      (Except.ok.inj hfj).symm
    rw [hRj, hr]
    have hDlen := flatten_length_uniform (X.map (fun p => (C.getD j []).map (fun cj =>
        Real.sqrt (((p.map (fun x => (x - cj) ^ 2)).sum : ℚ) : ℝ)))) d (by
      intro row hrow
      obtain ⟨p, _, rfl⟩ := List.mem_map.mp hrow
      rw [List.length_map]
      exact rect_getD_length C d hC j hj)
    rw [List.length_map] at hDlen
    have hidx : argmaxIdx (X.map (fun p => (C.getD j []).map (fun cj =>
        Real.sqrt (((p.map (fun x => (x - cj) ^ 2)).sum : ℚ) : ℝ)))).flatten / d <
        X.length := by
      have hne : (X.map (fun p => (C.getD j []).map (fun cj =>
          Real.sqrt (((p.map (fun x => (x - cj) ^ 2)).sum : ℚ) : ℝ)))).flatten ≠ [] := by
        intro hnil
        rw [hnil] at hDlen
        simp only [List.length_nil] at hDlen
        have h1 : 0 < X.length := by omega
        have h2 := Nat.mul_pos h1 hd0
        omega
      have hA := (argmaxIdx_spec (0 : ℝ) _ hne).1
      rw [hDlen] at hA
      exact (Nat.div_lt_iff_lt_mul hd0).mpr hA
    rw [List.getD_eq_getElem _ _ hidx]
    exact List.getElem_mem hidx
  · intro j hj hne
    obtain ⟨r, hfj, hRj⟩ := hRspec j [] (by simpa using hj)
    rw [hrangeD j hj] at hfj
    rw [if_neg (by intro hc; exact hne hc.2)] at hfj
    rw [hRj, (Except.ok.inj hfj).symm]

/-- Witness for `calc_centers_label_spec`: one in-range label, one
out-of-range label `5`, cluster `1` empty. -/
theorem calc_centers_label_spec_witness :
    ∃ R, calc_centers [[0], [2]] [[5], [9]] [0, 5] = .ok R ∧
      R.length = ([[5], [9]] : Mat).length ∧
      (∀ L' : List ℤ, L'.length = ([[0], [2]] : Mat).length →
        (∀ i < ([[0], [2]] : Mat).length,
          ((0 ≤ ([0, 5] : List ℤ).getD i 0 ∧
              ([0, 5] : List ℤ).getD i 0 < (([[5], [9]] : Mat).length : ℤ)) →
            L'.getD i 0 = ([0, 5] : List ℤ).getD i 0) ∧
          ((0 ≤ L'.getD i 0 ∧ L'.getD i 0 < (([[5], [9]] : Mat).length : ℤ)) →
            L'.getD i 0 = ([0, 5] : List ℤ).getD i 0)) →
        calc_centers [[0], [2]] [[5], [9]] L' = .ok R) ∧
      (0 < 1 → ∀ j < ([[5], [9]] : Mat).length,
        (∀ i < ([[0], [2]] : Mat).length, ([0, 5] : List ℤ).getD i 0 ≠ (j : ℤ)) →
        R.getD j [] ∈ ([[0], [2]] : Mat)) ∧
      (∀ j < ([[5], [9]] : Mat).length,
        clusterPts [[0], [2]] [0, 5] (Int.ofNat j) ≠ [] →
        R.getD j [] = meanRow (clusterPts [[0], [2]] [0, 5] (Int.ofNat j)) 1) :=
  calc_centers_label_spec [[0], [2]] [[5], [9]] [0, 5] 1 (by decide) (by decide)
    (by decide) (by decide) (by decide)

/-! ## Claim C1: the empty-cluster fallback of `calc_centers` -/

/-- **C1 counterexample**: with `X = [[0,4],[0,-1]]`, old centers
`C = [[9,9],[0,2]]` and labels `[0,0]` (cluster `1` empty), the
empty-cluster row returned for cluster `1` is `X[0] = [0,4]`, although the
point of `X` farthest (by Euclidean distance) from the old center
`C[1] = [0,2]` is `X[1] = [0,-1]` (distance `3` versus `2`).  The fallback
feeds the 1-D row `C[1]` to `measure_dist`, which broadcasts each of its
coordinates as a separate scalar "center", and maximises that transposed
quantity instead of the Euclidean distance. -/
theorem calc_centers_empty_cluster_cex :
    calc_centers [[0, 4], [0, -1]] [[9, 9], [0, 2]] [0, 0] = .ok [[0, 3/2], [0, 4]] ∧
    eucDist [0, 4] [0, 2] < eucDist [0, -1] [0, 2] ∧
    ([0, 4] : List ℚ) ≠ [0, -1] := by
  refine ⟨by rw [calc_centers_eq]; decide, ?_, by decide⟩
  rw [eucDist, eucDist, sqrt_cast_lt_iff _ _ (sqDist_nonneg _ _)]
  decide

/-- The largest entry of a list (the value at `np.argmax`). -/
noncomputable def rowMax (r : List ℝ) : ℝ := r.getD (argmaxIdx r) 0

/-- The quantity the fallback of `calc_centers` maximises for a point `p`
against the old center row `c`: the largest of the `d` values
`√(Σ_dd (p[dd] − c[jj])²)` produced by broadcasting each coordinate of `c`
as a scalar "center".  (For `d = 1` this is `|p[0] − c[0]|`, the genuine
Euclidean distance, which is the only case in which the fallback selects
the farthest point.) -/
noncomputable def fallbackScore (p c : List ℚ) : ℝ :=
  rowMax (c.map (fun cj => Real.sqrt (((p.map (fun x => (x - cj) ^ 2)).sum : ℚ) : ℝ)))

theorem flatten_getD_uniform {α : Type} (M : List (List α)) (d : ℕ)
    (hM : ∀ r ∈ M, r.length = d) (i j : ℕ) (hi : i < M.length) (hj : j < d) (e : α) :
    M.flatten.getD (i * d + j) e = (M.getD i []).getD j e := by
  induction M generalizing i with
  | nil => simp at hi
  | cons r rs ih =>
    have hr : r.length = d := hM r (by simp)
    have hlenrs : rs.flatten.length = rs.length * d :=
      flatten_length_uniform rs d (fun q hq => hM q (by simp [hq]))
    match i with
    | 0 =>
      rw [List.flatten_cons]
      have hb : 0 * d + j < (r ++ rs.flatten).length := by
        rw [List.length_append, hr]
        omega
      rw [List.getD_eq_getElem _ _ hb, List.getElem_append_left (by omega),
        List.getD_cons_zero, List.getD_eq_getElem _ _ (by omega)]
      simp only [Nat.zero_mul, Nat.zero_add]
    | Nat.succ i =>
      rw [List.flatten_cons, List.getD_cons_succ]
      have hi2 : i < rs.length := by simpa using hi
      have h3 : (i + 1) * d = i * d + d := by ring
      have hrec := ih (fun q hq => hM q (by simp [hq])) i hi2
      have hb2 : i * d + j < rs.flatten.length := by
        rw [hlenrs]
        have h2 : (i + 1) * d ≤ rs.length * d := Nat.mul_le_mul_right d (by omega)
        omega
      have hb : (i + 1) * d + j < (r ++ rs.flatten).length := by
        rw [List.length_append, hr, hlenrs]
        have h2 : (i + 1) * d ≤ rs.length * d := Nat.mul_le_mul_right d (by omega)
        omega
      rw [List.getD_eq_getElem _ _ hb,
        List.getElem_append_right (by rw [hr]; omega)]
      rw [← hrec, List.getD_eq_getElem _ _ hb2]
      congr 1
      rw [hr]
      omega

/-- `np.argmax` over the flattened row-major matrix, divided by the row
width: the first row whose maximum attains the global maximum. -/
theorem argmax_flatten_rows (M : List (List ℝ)) (d : ℕ) (hd : 0 < d)
    (hM : ∀ r ∈ M, r.length = d) (hMne : M ≠ []) :
    argmaxIdx M.flatten / d < M.length ∧
    (∀ i < M.length,
      rowMax (M.getD i []) ≤ rowMax (M.getD (argmaxIdx M.flatten / d) [])) ∧
    (∀ i < argmaxIdx M.flatten / d,
      rowMax (M.getD i []) < rowMax (M.getD (argmaxIdx M.flatten / d) [])) := by
  have hn : 0 < M.length := List.length_pos_of_ne_nil hMne
  have hlen : M.flatten.length = M.length * d := flatten_length_uniform M d hM
  have hFne : M.flatten ≠ [] := by
    intro hnil
    rw [hnil] at hlen
    simp only [List.length_nil] at hlen
    have := Nat.mul_pos hn hd
    omega
  obtain ⟨hA, hle, hfirst⟩ := argmaxIdx_spec (0 : ℝ) M.flatten hFne
  rw [hlen] at hA
  have hi0 : argmaxIdx M.flatten / d < M.length := (Nat.div_lt_iff_lt_mul hd).mpr hA
  have hrowlen : ∀ i < M.length, (M.getD i []).length = d := by
    intro i hi
    rw [List.getD_eq_getElem _ _ hi]
    exact hM _ (List.getElem_mem hi)
  have hrowne : ∀ i < M.length, (M.getD i []) ≠ [] := by
    intro i hi
    intro hnil
    have := hrowlen i hi
    rw [hnil] at this
    simp only [List.length_nil] at this
    omega
  -- the flat entry of each row maximum, and its bound
  have hmaxentry : ∀ i < M.length, rowMax (M.getD i []) =
      M.flatten.getD (i * d + argmaxIdx (M.getD i [])) 0 := by
    intro i hi
    rw [rowMax, flatten_getD_uniform M d hM i _ hi
      (by rw [← hrowlen i hi]; exact (argmaxIdx_spec 0 _ (hrowne i hi)).1) 0]
  have hbound : ∀ i < M.length, i * d + argmaxIdx (M.getD i []) < M.length * d := by
    intro i hi
    have h1 : argmaxIdx (M.getD i []) < d := by
      rw [← hrowlen i hi]
      exact (argmaxIdx_spec 0 _ (hrowne i hi)).1
    have h2 : (i + 1) * d ≤ M.length * d := Nat.mul_le_mul_right d (by omega)
    have h3 : (i + 1) * d = i * d + d := by ring
    omega
  -- the global maximum equals the row maximum of row i0
  set A := argmaxIdx M.flatten with hAdef
  set i0 := A / d with hi0def
  have hmod : i0 * d + A % d = A := by
    rw [hi0def, Nat.mul_comm]
    exact Nat.div_add_mod A d
  have hmodlt : A % d < d := Nat.mod_lt _ hd
  have hvalA : M.flatten.getD A 0 = (M.getD i0 []).getD (A % d) 0 := by
    conv_lhs => rw [← hmod]
    exact flatten_getD_uniform M d hM i0 (A % d) hi0 hmodlt 0
  have hglobal : M.flatten.getD A 0 = rowMax (M.getD i0 []) := by
    apply le_antisymm
    · rw [hvalA, rowMax]
      exact (argmaxIdx_spec 0 _ (hrowne i0 hi0)).2.1 (A % d) (by rw [hrowlen i0 hi0]; omega)
    · rw [hmaxentry i0 hi0]
      exact hle _ (by rw [hlen]; exact hbound i0 hi0)
  refine ⟨hi0, ?_, ?_⟩
  · intro i hi
    rw [← hglobal, hmaxentry i hi]
    exact hle _ (by rw [hlen]; exact hbound i hi)
  · intro i hi
    have hiM : i < M.length := by omega
    rw [← hglobal, hmaxentry i hiM]
    apply hfirst
    have h1 : argmaxIdx (M.getD i []) < d := by
      rw [← hrowlen i hiM]
      exact (argmaxIdx_spec 0 _ (hrowne i hiM)).1
    have h2 : (i + 1) * d ≤ i0 * d := Nat.mul_le_mul_right d (by omega)
    have h3 : (i + 1) * d = i * d + d := by ring
    omega

/-- **C1 amended**: for matching-width inputs with `0 < d ≤ n` and an
empty cluster `j`, `calc_centers` succeeds, and the returned row `j` is a
row of `X` — not the Euclidean-farthest point from the old center `C[j]`,
but the point (first such, on ties) maximising `fallbackScore`: the
largest of the `d` values obtained by broadcasting each *coordinate* of
the old center row as a scalar center (`dists = measure_dist(X,
centers[j])` on a 1-D row, then `X[np.argmax(dists) // d]`).  For `d = 1`
the score coincides with the Euclidean distance, so only then is the
claimed farthest-point behaviour obtained.  No NaN can appear: the row is
one of the rows of `X`. -/
theorem calc_centers_empty_cluster_fallback (X C : Mat) (L : List ℤ) (d : ℕ)
    (hX : Rect X d) (hC : Rect C d) (hk : 0 < C.length) (hd0 : 0 < d)
    (hlen : L.length = X.length) (hd : d ≤ X.length)
    (j : ℕ) (hj : j < C.length) (hempty : ∀ i < X.length, L.getD i 0 ≠ (j : ℤ)) :
    ∃ R, calc_centers X C L = .ok R ∧
      ∃ i0 < X.length, R.getD j [] = X.getD i0 [] ∧
        (∀ i < X.length, fallbackScore (X.getD i []) (C.getD j []) ≤
          fallbackScore (X.getD i0 []) (C.getD j [])) ∧
        (∀ i < i0, fallbackScore (X.getD i []) (C.getD j []) <
          fallbackScore (X.getD i0 []) (C.getD j [])) := by
  have hwX : width X = d := width_eq_of_le X d hX hd
  have hwC : width C = d := width_eq C d hC (List.ne_nil_of_length_pos hk)
  have hbody : calc_centers X C L =
      (List.range C.length).mapM (fun kk =>
        if 0 < d ∧ clusterPts X L (Int.ofNat kk) = [] then
          (measure_dist1 X (C.getD kk [])).map
            (fun D => X.getD (argmaxIdx D.flatten / d) [])
        else .ok (meanRow (clusterPts X L (Int.ofNat kk)) d)) := by
    rw [calc_centers, if_neg (by omega), if_neg (by rw [hwX, hwC]; simp), hwX]
  have hok : ∀ kk ∈ List.range C.length, ∃ r,
      (if 0 < d ∧ clusterPts X L (Int.ofNat kk) = [] then
        (measure_dist1 X (C.getD kk [])).map
          (fun D => X.getD (argmaxIdx D.flatten / d) [])
      else .ok (meanRow (clusterPts X L (Int.ofNat kk)) d)) = .ok r := by
    intro kk hkk
    rw [List.mem_range] at hkk
    by_cases hcond : 0 < d ∧ clusterPts X L (Int.ofNat kk) = []
    · rw [if_pos hcond, measure_dist1,
        if_neg (by rw [rect_getD_length C d hC kk hkk]; omega)]
      exact ⟨_, rfl⟩
    · rw [if_neg hcond]
      exact ⟨_, rfl⟩
  obtain ⟨R, hR⟩ := mapM_except_ok_of_all _ (List.range C.length) hok
  obtain ⟨hRlen, hRspec⟩ := mapM_except_ok_spec _ (List.range C.length) R hR
  obtain ⟨r, hfj, hRj⟩ := hRspec j [] (by simpa using hj)
  have hrangeD : (List.range C.length).getD j 0 = j := by
    rw [List.getD_eq_getElem _ _ (by simpa using hj)]
    simp
  rw [hrangeD] at hfj
  have hempty2 : clusterPts X L (Int.ofNat j) = [] := by
    apply clusterPts_eq_nil X L _ hlen
    intro i hi
    simpa using hempty i hi
  rw [if_pos ⟨hd0, hempty2⟩, measure_dist1,
    if_neg (by rw [rect_getD_length C d hC j hj]; omega)] at hfj
  simp only [Except.map] at hfj
  set M := X.map (fun p => (C.getD j []).map (fun cj =>
    Real.sqrt (((p.map (fun x => (x - cj) ^ 2)).sum : ℚ) : ℝ))) with hMdef
  have hr : r = X.getD (argmaxIdx M.flatten / d) [] := (Except.ok.inj hfj).symm
  have hMrows : ∀ q ∈ M, q.length = d := by
    intro q hq
    obtain ⟨p, _, rfl⟩ := List.mem_map.mp hq
    rw [List.length_map]
    exact rect_getD_length C d hC j hj
  have hMne : M ≠ [] := by
    rw [hMdef]
    simp only [ne_eq, List.map_eq_nil_iff]
    exact List.ne_nil_of_length_pos (by omega)
  obtain ⟨hi0, hmax, hfirstmax⟩ := argmax_flatten_rows M d hd0 hMrows hMne
  rw [List.length_map] at hi0
  have hMgetD : ∀ i < X.length, M.getD i [] = (C.getD j []).map (fun cj =>
      Real.sqrt ((((X.getD i []).map (fun x => (x - cj) ^ 2)).sum : ℚ) : ℝ)) := by
    intro i hi
    rw [hMdef]
    exact getD_map _ X i hi [] []
  have hscore : ∀ i < X.length, rowMax (M.getD i []) =
      fallbackScore (X.getD i []) (C.getD j []) := by
    intro i hi
    rw [hMgetD i hi, fallbackScore]
  refine ⟨R, by rw [hbody]; exact hR, argmaxIdx M.flatten / d, hi0, by rw [hRj, hr], ?_, ?_⟩
  · intro i hi
    rw [← hscore i hi, ← hscore _ hi0]
    exact hmax i (by rw [List.length_map]; exact hi)
  · intro i hi
    have hiX : i < X.length := by omega
    rw [← hscore i hiX, ← hscore _ hi0]
    exact hfirstmax i hi

/-- Witness for `calc_centers_empty_cluster_fallback` at the
counterexample configuration (`d = 2`, cluster `1` empty). -/
theorem calc_centers_empty_cluster_fallback_witness :
    ∃ R, calc_centers [[0, 4], [0, -1]] [[9, 9], [0, 2]] [0, 0] = .ok R ∧
      ∃ i0 < ([[0, 4], [0, -1]] : Mat).length,
        R.getD 1 [] = ([[0, 4], [0, -1]] : Mat).getD i0 [] ∧
        (∀ i < ([[0, 4], [0, -1]] : Mat).length,
          fallbackScore (([[0, 4], [0, -1]] : Mat).getD i [])
              (([[9, 9], [0, 2]] : Mat).getD 1 []) ≤
            fallbackScore (([[0, 4], [0, -1]] : Mat).getD i0 [])
              (([[9, 9], [0, 2]] : Mat).getD 1 [])) ∧
        (∀ i < i0,
          fallbackScore (([[0, 4], [0, -1]] : Mat).getD i [])
              (([[9, 9], [0, 2]] : Mat).getD 1 []) <
            fallbackScore (([[0, 4], [0, -1]] : Mat).getD i0 [])
              (([[9, 9], [0, 2]] : Mat).getD 1 [])) :=
  calc_centers_empty_cluster_fallback [[0, 4], [0, -1]] [[9, 9], [0, 2]] [0, 0] 2
    (by decide) (by decide) (by decide) (by decide) (by decide) (by decide) 1
    (by decide) (by decide)

/-! ## Claim C9: the boundaries `k = 1` and `k = n` -/

/-- **C9 counterexample**: `fit` does *not* succeed at `k = n` for every
`X`: with duplicate rows (`X = [[0],[0]]`, `k = 2`) the second-center
weights are all zero — the duplicate's zero distance is erased by the
`0 → ∞` replacement and then restored to a zero weight — so the
probability vector degenerates (`0/0`, NaN in floating point) and
`np.random.choice` raises. -/
theorem fit_duplicate_rows_cex :
    fit [[0], [0]] 2 ⟨0, fun _ _ => 0⟩ = .error "probabilities do not sum to 1" := by
  rw [fit_eq_fitQ]
  decide

theorem row_sub_self (r : List ℚ) : ((r.zip r).map (fun s => s.1 - s.2)).sum = 0 := by
  induction r with
  | nil => rfl
  | cons x xs ih =>
    rw [List.zip_cons_cons, List.map_cons, List.sum_cons, ih]
    ring

theorem sumDiff_self (A : Mat) : sumDiff A A = 0 := by
  induction A with
  | nil => rfl
  | cons r rs ih =>
    rw [sumDiff] at ih ⊢
    rw [List.zip_cons_cons, List.map_cons, List.sum_cons, row_sub_self, ih]
    ring

theorem meanRow_length (pts : Mat) (d : ℕ) : (meanRow pts d).length = d := by
  simp [meanRow]

theorem meanRow_singleton (c : List ℚ) (d : ℕ) (hc : c.length = d) : meanRow [c] d = c := by
  apply List.ext_getElem (by simp [meanRow, hc])
  intro i h1 h2
  simp only [meanRow, List.getElem_map, List.getElem_range, List.map_cons, List.map_nil,
    List.sum_cons, List.sum_nil, List.length_cons, List.length_nil]
  rw [List.getD_eq_getElem c 0 h2]
  push_cast
  ring

theorem map_getD_range (l : Mat) : (List.range l.length).map (fun i => l.getD i []) = l := by
  apply List.ext_getElem (by simp)
  intro i h1 h2
  simp only [List.getElem_map, List.getElem_range]
  exact List.getD_eq_getElem l [] h2

theorem mapM_except_ok_map {α : Type} (f : ℕ → Except String α) (g : ℕ → α) :
    ∀ l : List ℕ, (∀ x ∈ l, f x = .ok (g x)) → l.mapM f = .ok (l.map g) := by
  intro l
  induction l with
  | nil => intro _; rw [List.mapM_nil]; rfl
  | cons a as ih =>
    intro h
    rw [List.mapM_cons]
    exact (except_bind_ok _ _ _).mpr ⟨g a, h a (by simp),
      (except_bind_ok _ _ _).mpr ⟨as.map g, ih (fun x hx => h x (by simp [hx])), rfl⟩⟩

/-- Against a single center every point is labeled `0`. -/
theorem assign_const_zero (X : Mat) (d : ℕ) (hX : Rect X d) (hn : 0 < X.length)
    (c : List ℚ) (hc : c.length = d) :
    assign X [c] = .ok (X.map (fun _ => (0 : ℤ))) := by
  have hXne : X ≠ [] := List.ne_nil_of_length_pos hn
  have hwX : width X = d := width_eq X d hX hXne
  have hg1 : ¬width X ≠ width [c] := by
    rw [hwX]
    simp [width, hc]
  have hg2 : ¬X.length < ([c] : Mat).length := by
    simp only [List.length_cons, List.length_nil]
    omega
  have hg3 : ¬(([c] : Mat).isEmpty ∧ ¬X.isEmpty) := by
    intro hcon
    simp [List.isEmpty] at hcon
  rw [assign, if_neg hg1, if_neg hg2, if_neg hg3, measure_dist, if_neg hg2]
  simp only [Except.map]
  congr 1
  rw [List.map_map]
  rfl

/-- `clusterPts` of the all-`0` labeling at cluster `0` is all of `X`. -/
theorem clusterPts_zero_all (X : Mat) :
    clusterPts X (X.map (fun _ => (0 : ℤ))) 0 = X := by
  induction X with
  | nil => rfl
  | cons x xs ih =>
    rw [clusterPts] at ih ⊢
    rw [List.map_cons, List.zip_cons_cons, List.filter_cons, if_pos (by simp), List.map_cons,
      ih]

/-- With one center and the all-`0` labeling, `calc_centers` returns the
single global mean row. -/
theorem calc_centers_single (X : Mat) (d : ℕ) (hX : Rect X d) (hn : 0 < X.length)
    (c : List ℚ) (hc : c.length = d) :
    calc_centers X [c] (X.map (fun _ => (0 : ℤ))) = .ok [meanRow X d] := by
  have hXne : X ≠ [] := List.ne_nil_of_length_pos hn
  have hwX : width X = d := width_eq X d hX hXne
  have hg1 : ¬X.length ≠ (X.map (fun _ => (0 : ℤ))).length := by simp
  have hg2 : ¬width X ≠ width [c] := by
    rw [hwX]
    simp [width, hc]
  rw [calc_centers, if_neg hg1, if_neg hg2]
  have hrange : List.range ([c] : Mat).length = [0] := rfl
  rw [hrange, List.mapM_cons, List.mapM_nil]
  have hcl : clusterPts X (X.map (fun _ => (0 : ℤ))) (Int.ofNat 0) = X :=
    clusterPts_zero_all X
  rw [if_neg (by rw [hcl]; intro hcon; exact hXne hcon.2), hcl, hwX]
  rfl

/-- `fit` at `k = 1` always returns the single global centroid. -/
theorem fit_k1 (X : Mat) (d : ℕ) (hX : Rect X d) (hn : 0 < X.length) (rng : RNG) :
    fit X 1 rng = .ok [centroidRow X] := by
  have hXne : X ≠ [] := List.ne_nil_of_length_pos hn
  have hwX : width X = d := width_eq X d hX hXne
  have hrlt : rng.first % X.length < X.length := Nat.mod_lt _ hn
  have hcrow : (X.getD (rng.first % X.length) []).length = d :=
    rect_getD_length X d hX _ hrlt
  have hinit : init_centers X 1 rng = .ok [X.getD (rng.first % X.length) []] := by
    rw [init_centers, if_neg (by omega), if_neg (by omega)]
    rfl
  have hmlen : (meanRow X d).length = d := meanRow_length X d
  have hcentroid : centroidRow X = meanRow X d := by rw [centroidRow, hwX]
  rw [fit, fitAux, hinit]
  dsimp only
  rw [assign_const_zero X d hX hn _ hcrow]
  dsimp only
  rw [calc_centers_single X d hX hn _ hcrow]
  dsimp only
  rw [fitLoop]
  rw [show (20 - 1 : ℕ) = 19 from rfl, fitLoopGo]
  by_cases hs : sumDiff [meanRow X d] [X.getD (rng.first % X.length) []] ≠ 0 ∧ 1 < 20
  · rw [if_pos hs]
    rw [assign_const_zero X d hX hn _ hmlen]
    dsimp only
    rw [calc_centers_single X d hX hn _ hmlen]
    dsimp only
    rw [fitLoopGo,
      if_neg (by intro hcon; exact hcon.1 (sumDiff_self [meanRow X d]))]
    rw [hcentroid]
    rfl
  · rw [if_neg hs]
    rw [hcentroid]
    rfl

/-- The guarantees `np.random.choice(range(n), size=1, p=probs)` gives
about its return value whenever the probability vector is valid (sums to
1): an index into the vector that carries nonzero probability — numpy
never draws a zero-probability item. -/
def ValidRNG (rng : RNG) : Prop :=
  ∀ s ps, ps.sum = 1 → rng.choice s ps < ps.length ∧ ps.getD (rng.choice s ps) 0 ≠ 0

theorem initWeights_length (X centers : Mat) (ind : List ℕ) :
    (initWeights X centers ind).length = X.length := by
  simp [initWeights]

theorem initProbs_length (X centers : Mat) (ind : List ℕ) :
    (initProbs X centers ind).length = X.length := by
  rw [initProbs, List.length_map, initWeights]
  simp

theorem initProbs_getD (X centers : Mat) (ind : List ℕ) (t : ℕ) (ht : t < X.length) :
    (initProbs X centers ind).getD t 0 =
      (initWeights X centers ind).getD t 0 / (initWeights X centers ind).sum := by
  rw [initProbs]
  refine getD_map _ _ t ?_ 0 0
  rw [initWeights]
  simpa using ht

theorem initWeights_nonneg (X centers : Mat) (ind : List ℕ) :
    ∀ w ∈ initWeights X centers ind, 0 ≤ w := by
  intro w hw
  rw [initWeights] at hw
  obtain ⟨i, _, rfl⟩ := List.mem_map.mp hw
  dsimp only
  rcases foldr_minInf_spec (if i ∈ ind then centers.map (fun _ => (0 : ℚ))
      else centers.map (fun c => sqDist (X.getD i []) c)) with ⟨h1, _⟩ | ⟨m, h1, h2, _, _⟩
  · rw [h1]
    exact le_refl 0
  · rw [h1]
    split_ifs at h2 with hmem
    · obtain ⟨c, _, rfl⟩ := List.mem_map.mp h2
      exact le_refl 0
    · obtain ⟨c, _, rfl⟩ := List.mem_map.mp h2
      exact sqDist_nonneg _ _

theorem nodup_getD_inj (X : Mat) (hnd : X.Nodup) (i j : ℕ) (hi : i < X.length)
    (hj : j < X.length) (h : X.getD i [] = X.getD j []) : i = j := by
  rw [List.getD_eq_getElem _ _ hi, List.getD_eq_getElem _ _ hj] at h
  have hfin : (⟨i, hi⟩ : Fin X.length) = ⟨j, hj⟩ :=
    List.nodup_iff_injective_get.mp hnd (show X.get ⟨i, hi⟩ = X.get ⟨j, hj⟩ by simpa using h)
  simpa using hfin

/-- With pairwise-distinct rows, every not-yet-selected point carries a
strictly positive weight. -/
theorem initWeights_pos (X : Mat) (d : ℕ) (hX : Rect X d) (hnd : X.Nodup)
    (ind : List ℕ) (hindne : ind ≠ []) (hindlt : ∀ i ∈ ind, i < X.length)
    (i : ℕ) (hi : i < X.length) (hnotin : i ∉ ind) :
    0 < (initWeights X (chosenCenters X ind) ind).getD i 0 := by
  rcases (init_weights_spec X ind i hi).2.1 hnotin with ⟨_, hall⟩ | ⟨hmem, hne, _⟩
  · exfalso
    match ind, hindne with
    | i1 :: rest, _ =>
      have hc : X.getD i1 [] ∈ chosenCenters X (i1 :: rest) := by
        rw [chosenCenters, List.map_cons]
        exact List.mem_cons_self _ _
      have hq : sqDist (X.getD i []) (X.getD i1 []) = 0 :=
        hall _ (List.mem_map.mpr ⟨_, hc, rfl⟩)
      have hi1 : i1 < X.length := hindlt i1 (by simp)
      have hlen : (X.getD i []).length = (X.getD i1 []).length := by
        rw [rect_getD_length X d hX i hi, rect_getD_length X d hX i1 hi1]
      have heq := (sqDist_eq_zero_iff _ _ hlen).mp hq
      have := nodup_getD_inj X hnd i i1 hi hi1 heq
      rw [this] at hnotin
      exact hnotin (by simp)
  · have hge : 0 ≤ (initWeights X (chosenCenters X ind) ind).getD i 0 := by
      obtain ⟨c, _, hc⟩ := List.mem_map.mp hmem
      rw [← hc]
      exact sqDist_nonneg _ _
    exact lt_of_le_of_ne hge (Ne.symm hne)

theorem sum_map_div (l : List ℚ) (s : ℚ) : (l.map (fun x => x / s)).sum = l.sum / s := by
  induction l with
  | nil => simp
  | cons x xs ih =>
    rw [List.map_cons, List.sum_cons, List.sum_cons, ih]
    ring

/-- One selection step of `init_centers`, in the distinct-rows setting:
the probabilities are well-formed, `np.random.choice` succeeds, and the
drawn index is a fresh one. -/
theorem init_step_distinct (X : Mat) (d : ℕ) (hX : Rect X d) (hnd : X.Nodup)
    (rng : RNG) (hvalid : ValidRNG rng) (ind : List ℕ) (hindne : ind ≠ [])
    (hnodup : ind.Nodup) (hindlt : ∀ i ∈ ind, i < X.length) (hless : ind.length < X.length) :
    ∃ j, init_step X rng ind = .ok (ind ++ [j]) ∧ j < X.length ∧ j ∉ ind := by
  have hexists : ∃ i0, i0 < X.length ∧ i0 ∉ ind := by
    by_contra hcon
    push_neg at hcon
    have hsub : (List.range X.length).toFinset ⊆ ind.toFinset := by
      intro a ha
      rw [List.mem_toFinset] at ha ⊢
      rw [List.mem_range] at ha
      exact hcon a ha
    have hcard := Finset.card_le_card hsub
    have hr : (List.range X.length).toFinset = Finset.range X.length := by
      ext a
      simp
    rw [hr, Finset.card_range] at hcard
    have h2 := List.toFinset_card_le ind
    omega
  obtain ⟨i0, hi0n, hi0notin⟩ := hexists
  have hw_nonneg := initWeights_nonneg X (chosenCenters X ind) ind
  have hwlen : (initWeights X (chosenCenters X ind) ind).length = X.length :=
    initWeights_length X (chosenCenters X ind) ind
  have hw_i0_pos : 0 < (initWeights X (chosenCenters X ind) ind).getD i0 0 :=
    initWeights_pos X d hX hnd ind hindne hindlt i0 hi0n hi0notin
  have hw_i0_mem : (initWeights X (chosenCenters X ind) ind).getD i0 0 ∈
      initWeights X (chosenCenters X ind) ind := by
    rw [List.getD_eq_getElem _ _ (by omega)]
    exact List.getElem_mem (by omega)
  have hsum_pos : 0 < (initWeights X (chosenCenters X ind) ind).sum :=
    lt_of_lt_of_le hw_i0_pos (List.single_le_sum hw_nonneg _ hw_i0_mem)
  have hprobs_sum : (initProbs X (chosenCenters X ind) ind).sum = 1 := by
    rw [initProbs, sum_map_div, div_self (ne_of_gt hsum_pos)]
  refine ⟨rng.choice ind.length (initProbs X (chosenCenters X ind) ind), ?_, ?_, ?_⟩
  · rw [init_step]
    rw [if_neg (by rw [hprobs_sum]; exact fun hcon => hcon rfl)]
  · have hjlt := (hvalid ind.length _ hprobs_sum).1
    have hplen : (initProbs X (chosenCenters X ind) ind).length = X.length :=
      initProbs_length X (chosenCenters X ind) ind
    omega
  · intro hmem
    have hjlt := (hvalid ind.length _ hprobs_sum).1
    have hplen : (initProbs X (chosenCenters X ind) ind).length = X.length :=
      initProbs_length X (chosenCenters X ind) ind
    have hpj := (hvalid ind.length _ hprobs_sum).2
    have hwj0 : (initWeights X (chosenCenters X ind) ind).getD
        (rng.choice ind.length (initProbs X (chosenCenters X ind) ind)) 0 = 0 :=
      (init_weights_spec X ind _ (by omega)).1 hmem
    apply hpj
    rw [initProbs_getD X (chosenCenters X ind) ind _ (by omega), hwj0]
    exact zero_div _

/-- The whole selection loop, distinct-rows setting: it succeeds and
keeps the selected indices distinct and in range. -/
theorem init_aux_distinct (X : Mat) (d : ℕ) (hX : Rect X d) (hnd : X.Nodup)
    (rng : RNG) (hvalid : ValidRNG rng) :
    ∀ (m : ℕ) (ind : List ℕ), ind ≠ [] → ind.Nodup → (∀ i ∈ ind, i < X.length) →
      m + ind.length ≤ X.length →
      ∃ ind2, init_aux X rng m ind = .ok ind2 ∧ ind2.length = ind.length + m ∧
        ind2.Nodup ∧ (∀ i ∈ ind2, i < X.length) := by
  intro m
  induction m with
  | zero =>
    intro ind h1 h2 h3 _
    exact ⟨ind, rfl, by omega, h2, h3⟩
  | succ mm ih =>
    intro ind hne hnodup hbound hcount
    obtain ⟨j, hstep, hjn, hjnotin⟩ := init_step_distinct X d hX hnd rng hvalid ind hne
      hnodup hbound (by omega)
    have hnodup2 : (ind ++ [j]).Nodup := by
      rw [List.nodup_append]
      refine ⟨hnodup, List.nodup_singleton j, ?_⟩
      intro a ha hmem
      rw [List.mem_singleton] at hmem
      rw [hmem] at ha
      exact hjnotin ha
    obtain ⟨ind2, h1, h2, h3, h4⟩ := ih (ind ++ [j]) (by simp) hnodup2
      (by
        intro i hi
        rcases List.mem_append.mp hi with h | h
        · exact hbound i h
        · rw [List.mem_singleton] at h
          rw [h]
          exact hjn)
      (by
        rw [List.length_append, List.length_singleton]
        omega)
    refine ⟨ind2, ?_, by rw [h2]; rw [List.length_append, List.length_singleton]; omega, h3, h4⟩
    rw [init_aux, hstep]
    exact h1

/-- At `k = n`, with distinct rows and a valid choice oracle,
`init_centers` returns a permutation of the rows of `X`. -/
theorem init_centers_perm (X : Mat) (d : ℕ) (hX : Rect X d) (hnd : X.Nodup)
    (hn : 0 < X.length) (rng : RNG) (hvalid : ValidRNG rng) :
    ∃ C, init_centers X (X.length : ℤ) rng = .ok C ∧ C.Perm X ∧ C.Nodup ∧ Rect C d := by
  rw [init_centers, if_neg (by omega), if_neg (by omega)]
  obtain ⟨ind2, h1, h2, h3, h4⟩ := init_aux_distinct X d hX hnd rng hvalid
    ((X.length : ℤ).toNat - 1) [rng.first % X.length] (by simp) (List.nodup_singleton _)
    (by
      intro i hi
      rw [List.mem_singleton] at hi
      rw [hi]
      exact Nat.mod_lt _ hn)
    (by
      rw [List.length_singleton, Int.toNat_natCast]
      omega)
  rw [h1]
  have hlen2 : ind2.length = X.length := by
    rw [h2, List.length_singleton, Int.toNat_natCast]
    omega
  have hperm_ind : ind2.Perm (List.range X.length) := by
    rw [List.perm_ext_iff_of_nodup h3 (List.nodup_range _)]
    intro a
    constructor
    · intro ha
      rw [List.mem_range]
      exact h4 a ha
    · intro ha
      rw [List.mem_range] at ha
      by_contra hnotin
      have hsub : ind2.toFinset ⊆ (Finset.range X.length).erase a := by
        intro b hb
        rw [List.mem_toFinset] at hb
        refine Finset.mem_erase.mpr ⟨?_, Finset.mem_range.mpr (h4 b hb)⟩
        intro hba
        rw [hba] at hb
        exact hnotin hb
      have hcard := Finset.card_le_card hsub
      rw [Finset.card_erase_of_mem (Finset.mem_range.mpr ha), Finset.card_range] at hcard
      have hc2 : ind2.toFinset.card = ind2.length := List.toFinset_card_of_nodup h3
      omega
  have hCperm : (chosenCenters X ind2).Perm X := by
    have h5 : (chosenCenters X ind2).Perm (chosenCenters X (List.range X.length)) :=
      hperm_ind.map _
    have h6 : chosenCenters X (List.range X.length) = X := map_getD_range X
    rw [h6] at h5
    exact h5
  refine ⟨_, rfl, hCperm, hCperm.nodup_iff.mpr hnd, ?_⟩
  intro r hr
  obtain ⟨i, hi, rfl⟩ := List.mem_map.mp hr
  exact rect_getD_length X d hX i (h4 i hi)

/-- Against a permutation of the (distinct) points, `assign` labels each
point with the index of its own center. -/
theorem assign_perm_nodup (X C : Mat) (d : ℕ) (hX : Rect X d) (hC : Rect C d)
    (hnd : X.Nodup) (hCnd : C.Nodup) (hperm : C.Perm X) (hn : 0 < X.length) :
    ∃ L, assign X C = .ok L ∧ L.length = X.length ∧
      ∀ i < X.length, ∃ ji : ℕ, L.getD i 0 = (ji : ℤ) ∧ ji < C.length ∧
        C.getD ji [] = X.getD i [] := by
  have hClen : C.length = X.length := hperm.length_eq
  have hXne : X ≠ [] := List.ne_nil_of_length_pos hn
  have hCne : C ≠ [] := List.ne_nil_of_length_pos (by omega)
  have hg1 : ¬width X ≠ width C := by
    rw [width_eq X d hX hXne, width_eq C d hC hCne]
    simp
  have hg2 : ¬X.length < C.length := by omega
  have hg3 : ¬(C.isEmpty ∧ ¬X.isEmpty) := fun hcon =>
    absurd (List.isEmpty_iff.mp hcon.1) hCne
  rw [assign, if_neg hg1, if_neg hg2, if_neg hg3, measure_dist, if_neg hg2]
  simp only [Except.map]
  refine ⟨_, rfl, by simp, ?_⟩
  intro i hi
  have hgetrow : ((X.map (fun p => C.map (fun c =>
      Real.sqrt ((sqDist p c : ℚ) : ℝ)))).map (fun row => (argminIdx row : ℤ))).getD i 0 =
      ((argminIdx (C.map (fun c => Real.sqrt ((sqDist (X.getD i []) c : ℚ) : ℝ)))) : ℤ) := by
    rw [getD_map _ _ i (by simpa using hi) [] 0, getD_map _ X i hi [] []]
  have hmem : X.getD i [] ∈ C := by
    rw [hperm.mem_iff, List.getD_eq_getElem _ _ hi]
    exact List.getElem_mem hi
  rw [List.mem_iff_getElem] at hmem
  obtain ⟨ji, hjilt, hji⟩ := hmem
  refine ⟨ji, ?_, hjilt, by rw [List.getD_eq_getElem _ _ hjilt]; exact hji⟩
  rw [hgetrow]
  congr 1
  apply argminIdx_eq_of_unique (0 : ℝ)
  · simpa using hjilt
  · intro m hm hmne
    rw [List.length_map] at hm
    rw [getD_map _ C ji hjilt [] 0, getD_map _ C m hm [] 0]
    have hji0 : sqDist (X.getD i []) (C.getD ji []) = 0 := by
      rw [List.getD_eq_getElem _ _ hjilt, hji]
      exact sqDist_self _
    have hjm : sqDist (X.getD i []) (C.getD m []) ≠ 0 := by
      intro hz
      have hlenpm : (X.getD i []).length = (C.getD m []).length := by
        rw [rect_getD_length C d hC m hm, rect_getD_length X d hX i hi]
      have heq := (sqDist_eq_zero_iff _ _ hlenpm).mp hz
      have hsame : C.getD m [] = C.getD ji [] := by
        rw [← heq, List.getD_eq_getElem _ _ hjilt, hji]
      exact hmne (nodup_getD_inj C hCnd m ji hm hjilt hsame)
    rw [hji0]
    have hpos : (0 : ℚ) < sqDist (X.getD i []) (C.getD m []) :=
      lt_of_le_of_ne (sqDist_nonneg _ _) (Ne.symm hjm)
    have h0 : Real.sqrt (((0 : ℚ) : ℚ) : ℝ) = 0 := by simp
    rw [h0]
    exact Real.sqrt_pos.mpr (by exact_mod_cast hpos)

/-- A cluster containing exactly one point. -/
theorem clusterPts_singleton (j : ℤ) :
    ∀ (X : Mat) (L : List ℤ) (i1 : ℕ), L.length = X.length → i1 < X.length →
      L.getD i1 0 = j → (∀ i < X.length, L.getD i 0 = j → i = i1) →
      clusterPts X L j = [X.getD i1 []] := by
  intro X
  induction X with
  | nil =>
    intro L i1 _ hi1 _ _
    simp at hi1
  | cons x xs ih =>
    intro L i1 hlen hi1 hL1 huniq
    match L with
    | a :: as =>
      by_cases ha : a = j
      · have h10 : i1 = 0 := (huniq 0 (by simp) (by simpa using ha)).symm
        subst h10
        rw [clusterPts, List.zip_cons_cons, List.filter_cons, if_pos (by simpa using ha),
          List.map_cons]
        have hrest : clusterPts xs as j = [] := by
          apply clusterPts_eq_nil xs as j (by simpa using hlen)
          intro i hi hij
          have := huniq (i + 1) (by simpa using hi) (by simpa using hij)
          omega
        rw [clusterPts] at hrest
        rw [hrest]
        rfl
      · have h1ne : i1 ≠ 0 := by
          intro h0
          rw [h0] at hL1
          exact ha (by simpa using hL1)
        match i1, h1ne with
        | Nat.succ i1, _ =>
          rw [clusterPts, List.zip_cons_cons, List.filter_cons, if_neg (by simpa using ha)]
          have hres := ih as i1 (by simpa using hlen) (by simpa using hi1)
            (by simpa using hL1)
            (fun i hi hij => by
              have := huniq (i + 1) (by simpa using hi) (by simpa using hij)
              omega)
          rw [clusterPts] at hres
          rw [List.getD_cons_succ]
          exact hres

/-- With the own-center labeling of a distinct-points permutation, every
cluster is a singleton, so `calc_centers` returns the centers unchanged:
a fixed point. -/
theorem calc_centers_perm (X C : Mat) (L : List ℤ) (d : ℕ) (hX : Rect X d) (hC : Rect C d)
    (hnd : X.Nodup) (hCnd : C.Nodup) (hperm : C.Perm X) (hn : 0 < X.length)
    (hLlen : L.length = X.length)
    (hL : ∀ i < X.length, ∃ ji : ℕ, L.getD i 0 = (ji : ℤ) ∧ ji < C.length ∧
      C.getD ji [] = X.getD i []) :
    calc_centers X C L = .ok C := by
  have hClen : C.length = X.length := hperm.length_eq
  have hXne : X ≠ [] := List.ne_nil_of_length_pos hn
  have hCne : C ≠ [] := List.ne_nil_of_length_pos (by omega)
  have hwX : width X = d := width_eq X d hX hXne
  have hwC : width C = d := width_eq C d hC hCne
  rw [calc_centers, if_neg (by omega), if_neg (by rw [hwX, hwC]; simp)]
  have hmain : ∀ j ∈ List.range C.length,
      (if 0 < width X ∧ clusterPts X L (Int.ofNat j) = [] then
        (measure_dist1 X (C.getD j [])).map
          (fun D => X.getD (argmaxIdx D.flatten / width X) [])
      else .ok (meanRow (clusterPts X L (Int.ofNat j)) (width X))) =
      .ok ((fun t => C.getD t []) j) := by
    intro j hj
    rw [List.mem_range] at hj
    have hCjX : C.getD j [] ∈ X := by
      rw [← hperm.mem_iff, List.getD_eq_getElem _ _ hj]
      exact List.getElem_mem hj
    rw [List.mem_iff_getElem] at hCjX
    obtain ⟨i1, hi1, hXi1⟩ := hCjX
    have hL1 : L.getD i1 0 = (j : ℤ) := by
      obtain ⟨ji, hLi, hjilt, hCji⟩ := hL i1 hi1
      have hsame : C.getD ji [] = C.getD j [] := by
        rw [hCji, List.getD_eq_getElem _ _ hi1]
        exact hXi1
      have := nodup_getD_inj C hCnd ji j hjilt hj hsame
      rw [hLi, this]
    have huniq : ∀ i < X.length, L.getD i 0 = (j : ℤ) → i = i1 := by
      intro i hi hij
      obtain ⟨ji, hLi, hjilt, hCji⟩ := hL i hi
      have hjij : ji = j := by
        rw [hLi] at hij
        exact_mod_cast hij
      have hXX : X.getD i [] = X.getD i1 [] := by
        rw [← hCji, hjij, List.getD_eq_getElem _ _ hi1, hXi1]
      exact nodup_getD_inj X hnd i i1 hi hi1 hXX
    have hsing : clusterPts X L (Int.ofNat j) = [X.getD i1 []] :=
      clusterPts_singleton (Int.ofNat j) X L i1 hLlen hi1 hL1 huniq
    rw [if_neg (by
      intro hcon
      rw [hsing] at hcon
      exact List.noConfusion hcon.2)]
    rw [hsing, hwX, meanRow_singleton _ d (rect_getD_length X d hX i1 hi1)]
    rw [List.getD_eq_getElem _ _ hi1, hXi1]
  have hres := mapM_except_ok_map _ (fun t => C.getD t []) (List.range C.length) hmain
  rw [hres, map_getD_range C]

/-- **C9 amended** (the duplicate-rows counterexample forces the
distinct-rows restriction at `k = n`): for every rectangular nonempty `X`,
`fit(X, 1)` succeeds and returns exactly the global centroid; and when the
rows of `X` are pairwise distinct and the ambient `np.random.choice` draws
respect their support guarantee, `fit(X, n)` succeeds, the returned
centers are a permutation of the points of `X`, and `assign` then places
every point in its own cluster at Euclidean distance zero.  With
duplicate rows `fit(X, n)` can instead raise (`fit_duplicate_rows_cex`). -/
theorem fit_boundary_k (X : Mat) (d : ℕ) (hX : Rect X d) (hn : 0 < X.length) (rng : RNG) :
    fit X 1 rng = .ok [centroidRow X] ∧
    (X.Nodup → ValidRNG rng →
      ∃ C L, fit X (X.length : ℤ) rng = .ok C ∧ C.Perm X ∧ assign X C = .ok L ∧
        ∀ i < X.length, C.getD (L.getD i 0).toNat [] = X.getD i [] ∧
          eucDist (X.getD i []) (C.getD (L.getD i 0).toNat []) = 0) := by
  refine ⟨fit_k1 X d hX hn rng, ?_⟩
  intro hnd hvalid
  obtain ⟨C, hinit, hperm, hCnd, hCrect⟩ := init_centers_perm X d hX hnd hn rng hvalid
  obtain ⟨L, hassign, hLlen, hLspec⟩ := assign_perm_nodup X C d hX hCrect hnd hCnd hperm hn
  have hcalc := calc_centers_perm X C L d hX hCrect hnd hCnd hperm hn hLlen hLspec
  refine ⟨C, L, ?_, hperm, hassign, ?_⟩
  · rw [fit, fitAux, hinit]
    dsimp only
    rw [hassign]
    dsimp only
    rw [hcalc]
    dsimp only
    rw [fitLoop, show (20 - 1 : ℕ) = 19 from rfl, fitLoopGo,
      if_neg (by intro hcon; exact hcon.1 (sumDiff_self C))]
    rfl
  · intro i hi
    obtain ⟨ji, hLi, hjilt, hCji⟩ := hLspec i hi
    rw [hLi, Int.toNat_natCast]
    refine ⟨hCji, ?_⟩
    rw [hCji, eucDist, sqDist_self]
    simp

/-- Witness for `fit_boundary_k` at `X = [[0],[7]]`. -/
theorem fit_boundary_k_witness :
    fit [[0], [7]] 1 ⟨0, fun _ _ => 0⟩ = .ok [centroidRow [[0], [7]]] ∧
    (([[0], [7]] : Mat).Nodup → ValidRNG ⟨0, fun _ _ => 0⟩ →
      ∃ C L, fit [[0], [7]] ((([[0], [7]] : Mat).length : ℕ) : ℤ) ⟨0, fun _ _ => 0⟩ = .ok C ∧
        C.Perm [[0], [7]] ∧ assign [[0], [7]] C = .ok L ∧
        ∀ i < ([[0], [7]] : Mat).length,
          C.getD (L.getD i 0).toNat [] = ([[0], [7]] : Mat).getD i [] ∧
          eucDist (([[0], [7]] : Mat).getD i []) (C.getD (L.getD i 0).toNat []) = 0) :=
  fit_boundary_k [[0], [7]] 1 (by decide) (by decide) ⟨0, fun _ _ => 0⟩

end KMeansFit
